import Mathlib

/-!
# Verification of the tornado-redis protocol engine and test harness

This development embeds, in Lean, the core of an asynchronous Redis client:
the RESP codec (encode/decode between structured reply values and wire
bytes), the connection state machine with its FIFO pending-request queue,
the pub/sub and blocking-command mode controller, and the test harness's
`expect` callback factory.  The client core itself is distributed
separately from its test suite; where the core's code is not present it is
modelled faithfully from the design specification, while the `expect`
helper is translated directly from `tests/tests.py`.

Byte buffers are modelled as `List Char` (the wire protocol is ASCII
text with length-prefixed binary-safe payloads), machine integers as
`Int`/`Nat`, and Python runtime values as the tagged union `PyVal`.
-/

namespace TornadoRedis

/-! ## Python values

`PyVal` models the Python values that flow through callbacks in the test
harness: `None`, integers, strings, and lists. -/

/-- A Python value as used by the client's callback interface and by the
test harness: `None`, an integer, a string, or a list of values. -/
inductive PyVal where
  | pnone : PyVal
  | pint (n : Int) : PyVal
  | pstr (s : String) : PyVal
  | plist (xs : List PyVal) : PyVal

/-- Three-way comparison of naturals. -/
def natCmp (m n : Nat) : Ordering :=
  if m < n then .lt else if n < m then .gt else .eq

/-- Three-way comparison of integers. -/
def intCmp (m n : Int) : Ordering :=
  if m < n then .lt else if n < m then .gt else .eq

/-- Lexicographic three-way comparison of character lists (Python string
ordering on byte strings). -/
def charListCmp : List Char → List Char → Ordering
  | [], [] => .eq
  | [], _ :: _ => .lt
  | _ :: _, [] => .gt
  | c :: cs, d :: ds =>
    match natCmp c.toNat d.toNat with
    | .eq => charListCmp cs ds
    | o => o

mutual

/-- Python 2 total order on mixed-type values, as used by the builtin
`sorted`: `None` precedes numbers, numbers precede every other type, and
remaining types are ordered by type name (`list` before `str`); values of
one type compare by value, lists lexicographically. -/
def pyCmp : PyVal → PyVal → Ordering
  | .pnone, .pnone => .eq
  | .pnone, _ => .lt
  | _, .pnone => .gt
  | .pint m, .pint n => intCmp m n
  | .pint _, _ => .lt
  | _, .pint _ => .gt
  | .plist xs, .plist ys => pyCmpList xs ys
  | .plist _, .pstr _ => .lt
  | .pstr _, .plist _ => .gt
  | .pstr s, .pstr t => charListCmp s.data t.data

/-- Lexicographic extension of `pyCmp` to lists. -/
def pyCmpList : List PyVal → List PyVal → Ordering
  | [], [] => .eq
  | [], _ :: _ => .lt
  | _ :: _, [] => .gt
  | x :: xs, y :: ys =>
    match pyCmp x y with
    | .eq => pyCmpList xs ys
    | o => o

end

/-- The non-strict order induced by `pyCmp`. -/
def pyLe (a b : PyVal) : Prop := pyCmp a b ≠ .gt

instance : DecidableRel pyLe := fun a b =>
  inferInstanceAs (Decidable (pyCmp a b ≠ .gt))

/-- Python's builtin `sorted` on a list of values, modelled as insertion
sort under the `pyLe` order. -/
def pySort (xs : List PyVal) : List PyVal := List.insertionSort pyLe xs

/-- Python equality test `==` on our value fragment (structural). -/
def pyEqB (a b : PyVal) : Bool := pyCmp a b == .eq

/-! ## RESP reply values and the codec -/

/-- Modelled from the spec: the `ReplyValue` tagged union produced by the
RESP codec (the codec's source, `redis/redis.py`, is not in the
repository snapshot): status string, error message, 64-bit signed
integer, bulk string, null bulk string, multi-bulk array, null array. -/
inductive ReplyValue where
  | status (s : List Char) : ReplyValue
  | error (s : List Char) : ReplyValue
  | integer (n : Int) : ReplyValue
  | bulk (s : List Char) : ReplyValue
  | nullBulk : ReplyValue
  | array (xs : List ReplyValue) : ReplyValue
  | nullArray : ReplyValue

/-- Result of decoding one reply from the front of a buffer. -/
inductive DecodeR where
  | ok (v : ReplyValue) (rest : List Char) : DecodeR
  | needMore : DecodeR
  | protoErr : DecodeR

/-- Result of decoding a fixed number of consecutive replies. -/
inductive DecodeRs where
  | ok (vs : List ReplyValue) (rest : List Char) : DecodeRs
  | needMore : DecodeRs
  | protoErr : DecodeRs

/-- Split a buffer at the first CRLF delimiter: returns the line content
and the remainder, or `none` when no complete line is buffered yet. -/
def splitLine : List Char → Option (List Char × List Char)
  | [] => none
  | c :: rest =>
    if c = '\r' ∧ rest.head? = some '\n' then some ([], rest.tail)
    else
      match splitLine rest with
      | none => none
      | some (l, r) => some (c :: l, r)

/-- Accumulator pass of decimal digit parsing; fails on a non-digit. -/
def parseDigitsAux : List Char → Nat → Option Nat
  | [], acc => some acc
  | c :: cs, acc =>
    if c.isDigit then parseDigitsAux cs (acc * 10 + (c.toNat - 48)) else none

/-- Parse a signed decimal integer occupying the whole line, as the codec
does for `:`, `$` and `*` header lines. -/
def parseIntLine (cs : List Char) : Option Int :=
  match cs with
  | [] => none
  | c :: rest =>
    if c = '-' then
      if rest.isEmpty then none
      else (parseDigitsAux rest 0).map (fun n => -(n : Int))
    else (parseDigitsAux (c :: rest) 0).map (fun n => (n : Int))

/-- Read a bulk-string payload of declared length `n` followed by a
trailing CRLF; waits for more bytes while fewer than `n + 2` are
buffered. -/
def readBulk (n : Nat) (buf : List Char) : DecodeR :=
  if buf.length < n + 2 then .needMore
  else if (buf.drop n).take 2 = ['\r', '\n'] then .ok (.bulk (buf.take n)) (buf.drop (n + 2))
  else .protoErr

mutual

/-- Modelled from the spec: one step of the RESP reply decoder (the
decoder's source is not in the repository snapshot).  Recognizes the five
type prefixes `+ - : $ *`, treats `$-1` as a null bulk string and `*-1`
as a null array, reads declared-length payloads exactly, and reports
`needMore` on an incomplete frame and `protoErr` on malformed bytes.
Recursion is bounded by an explicit fuel that outer callers instantiate
above the buffer length. -/
def decodeF : Nat → List Char → DecodeR
  | 0, _ => .needMore
  | _ + 1, [] => .needMore
  | fuel + 1, t :: tail =>
    match splitLine tail with
    | none => .needMore
    | some (line, rest) =>
      if t = '+' then .ok (.status line) rest
      else if t = '-' then .ok (.error line) rest
      else if t = ':' then
        match parseIntLine line with
        | some n => .ok (.integer n) rest
        | none => .protoErr
      else if t = '$' then
        match parseIntLine line with
        | none => .protoErr
        | some n =>
          if n = -1 then .ok .nullBulk rest
          else if n < 0 then .protoErr
          else readBulk n.toNat rest
      else if t = '*' then
        match parseIntLine line with
        | none => .protoErr
        | some n =>
          if n = -1 then .ok .nullArray rest
          else if n < 0 then .protoErr
          else
            match decodeMF fuel n.toNat rest with
            | .ok vs rest' => .ok (.array vs) rest'
            | .needMore => .needMore
            | .protoErr => .protoErr
      else .protoErr

/-- Decode `n` consecutive replies (the elements of a multi-bulk array). -/
def decodeMF : Nat → Nat → List Char → DecodeRs
  | 0, _, _ => .needMore
  | _ + 1, 0, buf => .ok [] buf
  | fuel + 1, n + 1, buf =>
    match decodeF fuel buf with
    | .ok v rest =>
      match decodeMF fuel n rest with
      | .ok vs rest' => .ok (v :: vs) rest'
      | .needMore => .needMore
      | .protoErr => .protoErr
    | .needMore => .needMore
    | .protoErr => .protoErr

end

/-- Modelled from the spec: `decode` parses exactly one complete reply
from the front of the buffer, returning the reply value and the
unconsumed remainder, or `needMore` / `protoErr`.  It is a pure function
of the buffer. -/
def decode (buf : List Char) : DecodeR := decodeF (buf.length + 1) buf

/-- The CRLF delimiter. -/
def crlf : List Char := ['\r', '\n']

/-- Little-endian decimal digits of `n` (fueled helper). -/
def natRevDigits : Nat → Nat → List Nat
  | 0, _ => []
  | fuel + 1, n => if n = 0 then [] else n % 10 :: natRevDigits fuel (n / 10)

/-- The ASCII character of a decimal digit. -/
def digitChar (d : Nat) : Char := Char.ofNat (48 + d)

/-- The value of a little-endian digit list. -/
def digitsVal : List Nat → Nat
  | [] => 0
  | d :: ds => d + 10 * digitsVal ds

/-- Decimal representation of a natural number. -/
def natDigits (n : Nat) : List Char :=
  if n = 0 then ['0'] else ((natRevDigits n n).reverse.map digitChar)

/-- Modelled from the spec: length-prefixed bulk-string encoding of one
element of a command frame. -/
def encodeBulk (s : List Char) : List Char :=
  '$' :: (natDigits s.length ++ crlf ++ s ++ crlf)

/-- Modelled from the spec: multi-bulk array framing of a list of
elements, each encoded as a bulk string. -/
def encodeFrame (elems : List (List Char)) : List Char :=
  '*' :: (natDigits elems.length ++ crlf ++ (elems.map encodeBulk).foldr (· ++ ·) [])

/-- Modelled from the spec: `encode(commandName, args)` emits a
multi-bulk array whose elements are the command name followed by each
argument (arguments already coerced to their string representation; the
`EncodingError` path for non-coercible arguments fails before any bytes
are produced and is outside this byte-level model). -/
def encode (cmd : List Char) (args : List (List Char)) : List Char :=
  encodeFrame (cmd :: args)

/-! ## The connection machine -/

mutual

/-- Modelled from the spec: the default translation of a raw `ReplyValue`
into the Python value handed to a completion callback: statuses and bulk
strings become strings, integers become integers, null replies become
`None`, arrays become lists.  This is also the reply shape of the
blocking pop commands `blpop`/`brpop`, whose timeout expiry (a null
array) must surface as `None`. -/
def rawToPy : ReplyValue → PyVal
  | .status s => .pstr (String.mk s)
  | .error m => .pstr (String.mk m)
  | .integer n => .pint n
  | .bulk s => .pstr (String.mk s)
  | .nullBulk => .pnone
  | .array xs => .plist (rawListToPy xs)
  | .nullArray => .pnone

/-- Elementwise `rawToPy`. -/
def rawListToPy : List ReplyValue → List PyVal
  | [] => []
  | v :: vs => rawToPy v :: rawListToPy vs

end

/-- The push-message kind tag `subscribe`. -/
def kSubscribe : List Char := "subscribe".data

/-- The push-message kind tag `psubscribe`. -/
def kPSubscribe : List Char := "psubscribe".data

/-- The push-message kind tag `unsubscribe`. -/
def kUnsubscribe : List Char := "unsubscribe".data

/-- The push-message kind tag `punsubscribe`. -/
def kPUnsubscribe : List Char := "punsubscribe".data

/-- The push-message kind tag `message`. -/
def kMessage : List Char := "message".data

/-- The push-message kind tag `pmessage`. -/
def kPMessage : List Char := "pmessage".data

/-- Is this kind tag a subscription acknowledgment kind? -/
def isSubKind (k : List Char) : Bool := k = kSubscribe ∨ k = kPSubscribe

/-- Is this kind tag an unsubscribe acknowledgment kind? -/
def isUnsubKind (k : List Char) : Bool := k = kUnsubscribe ∨ k = kPUnsubscribe

/-- Does this reply look like the first `subscribe`/`psubscribe`
acknowledgment, i.e. a push frame whose kind tag is a subscribe kind? -/
def isSubAck : ReplyValue → Bool
  | .array (.bulk k :: .bulk _ :: _) => isSubKind k
  | _ => false

/-- Modelled from the spec: one entry of the Pending-Request Queue — the
per-command reply-shaper together with (an identifier for) the completion
callback. -/
structure PendingEntry where
  cb : Nat
  shaper : ReplyValue → PyVal

/-- Modelled from the spec: the client error kinds surfaced to
callbacks. -/
inductive ClientError where
  | connectionError : ClientError
  | connectionClosed : ClientError
  | protocolError : ClientError
  | serverError (msg : List Char) : ClientError

/-- An observable callback invocation: either a completion callback fired
with `(errorOrNone, value)`, or a pub/sub callback fired with a raw push
tuple. -/
inductive Delivery where
  | reply (cb : Nat) (err : Option ClientError) (val : PyVal) : Delivery
  | push (cb : Nat) (msg : List PyVal) : Delivery

/-- The connection's routing mode. -/
inductive Mode where
  | normal : Mode
  | subscribed : Mode

/-- Modelled from the spec: the connection state — current mode, the
FIFO Pending-Request Queue, the Subscription registry (channel or
pattern name to callback), the inbound byte buffer, and the closed
flag. -/
structure ConnState where
  mode : Mode
  pending : List PendingEntry
  subs : List (List Char × Nat)
  buffer : List Char
  closed : Bool

/-- Look a channel or pattern name up in the Subscription registry. -/
def lookupSub : List (List Char × Nat) → List Char → Option Nat
  | [], _ => none
  | (name, cb) :: rest, ch => if name = ch then some cb else lookupSub rest ch

/-- Remove a channel or pattern name from the Subscription registry. -/
def removeSub : List (List Char × Nat) → List Char → List (List Char × Nat)
  | [], _ => []
  | (name, cb) :: rest, ch =>
    if name = ch then removeSub rest ch else (name, cb) :: removeSub rest ch

/-- Modelled from the spec: resolving one pending request with one
decoded reply — an error-type reply skips the shaper and the callback
receives the error message and a `None` value; any other reply is
shaped. -/
def deliverReply (e : PendingEntry) (v : ReplyValue) : Delivery :=
  match v with
  | .error m => .reply e.cb (some (.serverError m)) .pnone
  | v => .reply e.cb none (e.shaper v)

/-- Pop the head of the Pending-Request Queue and resolve it with the
given reply; a reply with no pending request is dropped. -/
def popAndDeliver (st : ConnState) (v : ReplyValue) : ConnState × List Delivery :=
  match st.pending with
  | [] => (st, [])
  | e :: rest => ({ st with pending := rest }, [deliverReply e v])

/-- Modelled from the spec: routing of one decoded reply.  In normal
mode replies resolve the Pending-Request Queue in FIFO order, except
that a `subscribe`/`psubscribe` acknowledgment consumes the pending slot
of the subscribe call and switches the connection to subscribed mode.
In subscribed mode every frame is a push message `[kind,
channelOrPattern, ...]` routed by registry lookup, never touching the
queue; an `unsubscribe`/`punsubscribe` acknowledgment removes its
registry entry and, when the registry empties, returns the connection to
normal mode. -/
def routeReply (st : ConnState) (v : ReplyValue) : ConnState × List Delivery :=
  match st.mode with
  | .normal =>
    match v with
    | .array (.bulk k :: .bulk name :: es) =>
      if isSubKind k then
        let st' := { st with mode := Mode.subscribed, pending := st.pending.drop 1 }
        match lookupSub st.subs name with
        | some cb =>
          (st', [Delivery.push cb (rawListToPy (.bulk k :: .bulk name :: es))])
        | none => (st', [])
      else popAndDeliver st v
    | _ => popAndDeliver st v
  | .subscribed =>
    match v with
    | .array (.bulk k :: .bulk name :: es) =>
      let ds :=
        match lookupSub st.subs name with
        | some cb => [Delivery.push cb (rawListToPy (.bulk k :: .bulk name :: es))]
        | none => []
      if isUnsubKind k then
        let subs' := removeSub st.subs name
        ({ st with subs := subs',
                   mode := if subs'.isEmpty then Mode.normal else Mode.subscribed }, ds)
      else (st, ds)
    | _ => (st, [])

/-- Fail one pending entry with a connection-level error. -/
def failEntry (err : ClientError) (e : PendingEntry) : Delivery :=
  .reply e.cb (some err) .pnone

/-- Modelled from the spec: a connection-fatal error drains the whole
Pending-Request Queue with that error, preserving FIFO order, and leaves
the connection unusable. -/
def drainAll (st : ConnState) (err : ClientError) : ConnState × List Delivery :=
  ({ st with pending := [], closed := true }, st.pending.map (failEntry err))

/-- Modelled from the spec: `close()` fails every still-pending request
with `ConnectionClosed` in FIFO order; a closed connection delivers
nothing further. -/
def closeConn (st : ConnState) : ConnState × List Delivery :=
  if st.closed then (st, []) else drainAll st .connectionClosed

/-- Modelled from the spec: a mid-operation socket failure surfaces
`ConnectionError` to the whole queue, like `close` does with
`ConnectionClosed`. -/
def connectionLost (st : ConnState) : ConnState × List Delivery :=
  if st.closed then (st, []) else drainAll st .connectionError

/-- Modelled from the spec: the read loop — repeatedly decode complete
frames from the inbound buffer, routing each one, until the buffer needs
more bytes; malformed bytes are connection-fatal (`ProtocolError`).  The
fuel bounds the number of iterations and is instantiated above the
buffer length. -/
def processBufferF : Nat → ConnState → ConnState × List Delivery
  | 0, st => (st, [])
  | fuel + 1, st =>
    match decode st.buffer with
    | .ok v rest =>
      let p1 := routeReply { st with buffer := rest } v
      let p2 := processBufferF fuel p1.1
      (p2.1, p1.2 ++ p2.2)
    | .needMore => (st, [])
    | .protoErr => drainAll st .protocolError

/-- Modelled from the spec: socket-readable event — append the newly
read bytes to the inbound buffer and run the read loop. -/
def processBytes (st : ConnState) (bs : List Char) : ConnState × List Delivery :=
  if st.closed then (st, [])
  else processBufferF ((st.buffer ++ bs).length + 1) { st with buffer := st.buffer ++ bs }

/-- Modelled from the spec: `send` writes a request and appends its
pending entry at the back of the FIFO queue; on a closed connection no
entry is queued. -/
def send (st : ConnState) (e : PendingEntry) : ConnState :=
  if st.closed then st else { st with pending := st.pending ++ [e] }

/-- `DecodesTo buf rs` states that the buffer consists of exactly the
complete encodings of the replies `rs`, in order. -/
inductive DecodesTo : List Char → List ReplyValue → Prop
  | nil : DecodesTo [] []
  | cons {buf : List Char} {v : ReplyValue} {rest : List Char} {vs : List ReplyValue} :
      decode buf = .ok v rest → DecodesTo rest vs → DecodesTo buf (v :: vs)

/-- The incremental decoding driver of the read loop: accumulate chunks
into the buffer, retrying the decode on `needMore` as each chunk
arrives. -/
def feedChunks (acc : List Char) : List (List Char) → DecodeR
  | [] => decode acc
  | c :: cs =>
    match decode (acc ++ c) with
    | .ok v rest => .ok v rest
    | .needMore => feedChunks (acc ++ c) cs
    | .protoErr => .protoErr

/-! ## The test harness's `expect` callback -/

/-- Python iteration for `sorted(x)`: a list yields its elements, a
string yields its characters as one-character strings, and other values
raise `TypeError`. -/
def pyIter : PyVal → Option (List PyVal)
  | .plist xs => some xs
  | .pstr s => some (s.data.map (fun c => .pstr (String.mk [c])))
  | _ => none

/-- The observable outcome of invoking an `_expect` callback: the error
assertion failed, `sorted(expected_value)` raised `TypeError`, the value
assertion failed, or everything passed (recording whether the `next`
continuation was called). -/
inductive ExpectOutcome where
  | errorAssertFailed : ExpectOutcome
  | raisedTypeError : ExpectOutcome
  | valueAssertFailed : ExpectOutcome
  | passed (nextCalled : Bool) : ExpectOutcome
  deriving DecidableEq

/-- The `_expect` closure built by `TestTornadoRedis.expect(expected_value,
expected_error, next, assertFunc)` in `tests/tests.py`, invoked with
`(received_error, received_value)`: first `assertEqual(received_error,
expected_error)`; then, when the received value is a list, both it and
the expected value are passed through `sorted` before the comparison,
otherwise the values are compared directly; the comparison function is
`assertFunc` when supplied and `assertEqual` otherwise; `next` is called
exactly once, after both assertions pass, when it was supplied
(`hasNext`). -/
def runExpect (expectedValue expectedError : PyVal) (hasNext : Bool)
    (assertFn : Option (PyVal → PyVal → Bool))
    (receivedError receivedValue : PyVal) : ExpectOutcome :=
  if pyEqB receivedError expectedError then
    match receivedValue with
    | .plist xs =>
      match pyIter expectedValue with
      | none => .raisedTypeError
      | some es =>
        if (assertFn.getD pyEqB) (.plist (pySort xs)) (.plist (pySort es)) then
          .passed hasNext
        else .valueAssertFailed
    | v =>
      if (assertFn.getD pyEqB) v expectedValue then .passed hasNext
      else .valueAssertFailed
  else .errorAssertFailed

/-- A throwaway default pending entry, used only as the `List.getD`
default when stating indexed properties of the queue. -/
def dfltEntry : PendingEntry := ⟨0, rawToPy⟩

/-! ## Order lemmas for Python values -/

theorem natCmp_lt_iff {m n : Nat} : natCmp m n = .lt ↔ m < n := by
  unfold natCmp
  by_cases h1 : m < n
  · simp [h1]
  · by_cases h2 : n < m <;> simp [h1, h2]

theorem natCmp_eq_iff {m n : Nat} : natCmp m n = .eq ↔ m = n := by
  unfold natCmp
  by_cases h1 : m < n
  · simp [h1]; omega
  · by_cases h2 : n < m <;> simp [h1, h2] <;> omega

theorem natCmp_swap (m n : Nat) : (natCmp m n).swap = natCmp n m := by
  unfold natCmp
  by_cases h1 : m < n
  · have h2 : ¬ n < m := by omega
    simp [h1, h2, Ordering.swap]
  · by_cases h2 : n < m <;> simp [h1, h2, Ordering.swap]

theorem intCmp_lt_iff {m n : Int} : intCmp m n = .lt ↔ m < n := by
  unfold intCmp
  by_cases h1 : m < n
  · simp [h1]
  · by_cases h2 : n < m <;> simp [h1, h2]

theorem intCmp_eq_iff {m n : Int} : intCmp m n = .eq ↔ m = n := by
  unfold intCmp
  by_cases h1 : m < n
  · simp [h1]; omega
  · by_cases h2 : n < m <;> simp [h1, h2] <;> omega

theorem intCmp_swap (m n : Int) : (intCmp m n).swap = intCmp n m := by
  unfold intCmp
  by_cases h1 : m < n
  · have h2 : ¬ n < m := by omega
    simp [h1, h2, Ordering.swap]
  · by_cases h2 : n < m <;> simp [h1, h2, Ordering.swap]

theorem char_eq_of_toNat_eq {c d : Char} (h : c.toNat = d.toNat) : c = d := by
  apply Char.eq_of_val_eq
  simp only [Char.toNat] at h
  cases hc : c.val; cases hd : d.val
  rw [hc, hd] at h
  congr 1
  exact BitVec.toNat_injective h

theorem charListCmp_eq_iff : ∀ s t : List Char, charListCmp s t = .eq ↔ s = t := by
  intro s
  induction s with
  | nil => intro t; cases t <;> simp [charListCmp]
  | cons c cs ih =>
    intro t
    cases t with
    | nil => simp [charListCmp]
    | cons d ds =>
      simp only [charListCmp]
      rcases hcd : natCmp c.toNat d.toNat with h | h | h
      · simp only []
        constructor
        · intro hx; exact absurd hx (by simp)
        · intro hx
          have : c = d := by injection hx
          rw [this] at hcd
          rw [natCmp_eq_iff.mpr rfl] at hcd
          cases hcd
      · have hc : c = d := char_eq_of_toNat_eq (natCmp_eq_iff.mp hcd)
        subst hc
        simp only []
        rw [ih ds]
        constructor
        · intro hx; rw [hx]
        · intro hx; injection hx
      · simp only []
        constructor
        · intro hx; exact absurd hx (by simp)
        · intro hx
          have : c = d := by injection hx
          rw [this] at hcd
          rw [natCmp_eq_iff.mpr rfl] at hcd
          cases hcd

theorem charListCmp_swap : ∀ s t : List Char, (charListCmp s t).swap = charListCmp t s := by
  intro s
  induction s with
  | nil => intro t; cases t <;> rfl
  | cons c cs ih =>
    intro t
    cases t with
    | nil => rfl
    | cons d ds =>
      simp only [charListCmp]
      rcases hcd : natCmp c.toNat d.toNat with h | h | h <;>
        rw [show natCmp d.toNat c.toNat = (natCmp c.toNat d.toNat).swap from (natCmp_swap ..).symm, hcd]
      · rfl
      · exact ih ds
      · rfl

theorem charListCmp_lt_trans :
    ∀ s t u : List Char, charListCmp s t = .lt → charListCmp t u = .lt → charListCmp s u = .lt := by
  intro s
  induction s with
  | nil =>
    intro t u h1 h2
    cases t with
    | nil => exact Ordering.noConfusion h1
    | cons d ds =>
      cases u with
      | nil => exact Ordering.noConfusion h2
      | cons e es => rfl
  | cons c cs ih =>
    intro t u h1 h2
    cases t with
    | nil => exact Ordering.noConfusion h1
    | cons d ds =>
      cases u with
      | nil => exact Ordering.noConfusion h2
      | cons e es =>
        simp only [charListCmp] at h1 h2 ⊢
        rcases hcd : natCmp c.toNat d.toNat with _ | _ | _ <;> rw [hcd] at h1
        · rcases hde : natCmp d.toNat e.toNat with _ | _ | _ <;> rw [hde] at h2
          · rw [natCmp_lt_iff.mpr (Nat.lt_trans (natCmp_lt_iff.mp hcd) (natCmp_lt_iff.mp hde))]
          · have hdeq : d.toNat = e.toNat := natCmp_eq_iff.mp hde
            rw [← hdeq, hcd]
          · exact Ordering.noConfusion h2
        · have hceq : c.toNat = d.toNat := natCmp_eq_iff.mp hcd
          rcases hde : natCmp d.toNat e.toNat with _ | _ | _ <;> rw [hde] at h2
          · rw [hceq, hde]
          · rw [hceq, hde]
            exact ih ds es h1 h2
          · exact Ordering.noConfusion h2
        · exact Ordering.noConfusion h1

theorem pyCmp_swap : ∀ a b : PyVal, (pyCmp a b).swap = pyCmp b a := by
  refine pyCmp.induct (fun a b => (pyCmp a b).swap = pyCmp b a)
    (fun xs ys => (pyCmpList xs ys).swap = pyCmpList ys xs)
    ?_ ?_ ?_ ?_ ?_ ?_ ?_ ?_ ?_ ?_ ?_ ?_ ?_ ?_ ?_
  · rfl
  · intro x hx
    cases x with
    | pnone => exact absurd rfl hx
    | pint n => rfl
    | pstr s => rfl
    | plist xs => rfl
  · intro t h1 _
    cases t with
    | pnone => exact absurd rfl h1
    | pint n => rfl
    | pstr s => rfl
    | plist xs => rfl
  · intro m n; exact intCmp_swap m n
  · intro n x h1 h2
    cases x with
    | pnone => exact absurd rfl h1
    | pint k => exact absurd rfl (h2 k)
    | pstr s => rfl
    | plist xs => rfl
  · intro t n h1 h2 _
    cases t with
    | pnone => exact absurd rfl h1
    | pint k => exact absurd rfl (h2 k)
    | pstr s => rfl
    | plist xs => rfl
  · intro xs ys ih
    simpa only [pyCmp] using ih
  · intro xs s; rfl
  · intro s xs; rfl
  · intro s t; exact charListCmp_swap s.data t.data
  · rfl
  · intro x xs; rfl
  · intro x xs; rfl
  · intro x xs y ys hxy ih1 ih2
    have hyx : pyCmp y x = .eq := by rw [← ih1, hxy]; rfl
    simp only [pyCmpList]
    rw [hxy, hyx]
    exact ih2
  · intro x xs y ys hxy ih1
    have hne : pyCmp x y ≠ .eq := fun h => hxy h
    have hyx : pyCmp y x = (pyCmp x y).swap := ih1.symm
    simp only [pyCmpList]
    rcases h : pyCmp x y with _ | _ | _
    · rw [hyx, h]; rfl
    · exact absurd h hne
    · rw [hyx, h]; rfl

theorem pyCmp_eq_iff : ∀ a b : PyVal, pyCmp a b = .eq ↔ a = b := by
  refine pyCmp.induct (fun a b => pyCmp a b = .eq ↔ a = b)
    (fun xs ys => pyCmpList xs ys = .eq ↔ xs = ys)
    ?_ ?_ ?_ ?_ ?_ ?_ ?_ ?_ ?_ ?_ ?_ ?_ ?_ ?_ ?_
  · exact ⟨fun _ => rfl, fun _ => rfl⟩
  · intro x hx
    cases x with
    | pnone => exact absurd rfl hx
    | pint n => exact ⟨fun h => Ordering.noConfusion h, fun h => PyVal.noConfusion h⟩
    | pstr s => exact ⟨fun h => Ordering.noConfusion h, fun h => PyVal.noConfusion h⟩
    | plist xs => exact ⟨fun h => Ordering.noConfusion h, fun h => PyVal.noConfusion h⟩
  · intro t h1 _
    cases t with
    | pnone => exact absurd rfl h1
    | pint n => exact ⟨fun h => Ordering.noConfusion h, fun h => PyVal.noConfusion h⟩
    | pstr s => exact ⟨fun h => Ordering.noConfusion h, fun h => PyVal.noConfusion h⟩
    | plist xs => exact ⟨fun h => Ordering.noConfusion h, fun h => PyVal.noConfusion h⟩
  · intro m n
    constructor
    · intro h
      rw [intCmp_eq_iff.mp h]
    · intro h
      have hmn : m = n := by injection h
      exact intCmp_eq_iff.mpr hmn
  · intro n x h1 h2
    cases x with
    | pnone => exact absurd rfl h1
    | pint k => exact absurd rfl (h2 k)
    | pstr s => exact ⟨fun h => Ordering.noConfusion h, fun h => PyVal.noConfusion h⟩
    | plist xs => exact ⟨fun h => Ordering.noConfusion h, fun h => PyVal.noConfusion h⟩
  · intro t n h1 h2 _
    cases t with
    | pnone => exact absurd rfl h1
    | pint k => exact absurd rfl (h2 k)
    | pstr s => exact ⟨fun h => Ordering.noConfusion h, fun h => PyVal.noConfusion h⟩
    | plist xs => exact ⟨fun h => Ordering.noConfusion h, fun h => PyVal.noConfusion h⟩
  · intro xs ys ih
    constructor
    · intro h
      rw [ih.mp h]
    · intro h
      have hl : xs = ys := by injection h
      exact ih.mpr hl
  · intro xs s; exact ⟨fun h => Ordering.noConfusion h, fun h => PyVal.noConfusion h⟩
  · intro s xs; exact ⟨fun h => Ordering.noConfusion h, fun h => PyVal.noConfusion h⟩
  · intro s t
    constructor
    · intro h
      have hd : s.data = t.data := charListCmp_eq_iff s.data t.data |>.mp h
      cases s; cases t
      simp_all
    · intro h
      have hs : s = t := by injection h
      exact charListCmp_eq_iff s.data t.data |>.mpr (by rw [hs])
  · exact ⟨fun _ => rfl, fun _ => rfl⟩
  · intro x xs; exact ⟨fun h => Ordering.noConfusion h, fun h => List.noConfusion h⟩
  · intro x xs; exact ⟨fun h => Ordering.noConfusion h, fun h => List.noConfusion h⟩
  · intro x xs y ys hxy ih1 ih2
    have hx : x = y := ih1.mp hxy
    subst hx
    constructor
    · intro h
      simp only [pyCmpList] at h
      rw [hxy] at h
      rw [ih2.mp h]
    · intro h
      have htl : xs = ys := by injection h
      simp only [pyCmpList]
      rw [hxy]
      exact ih2.mpr htl
  · intro x xs y ys hxy ih1
    constructor
    · intro h
      exfalso
      simp only [pyCmpList] at h
      rcases hv : pyCmp x y with _ | _ | _ <;> rw [hv] at h
      · exact Ordering.noConfusion h
      · exact hxy hv
      · exact Ordering.noConfusion h
    · intro h
      exfalso
      have hx : x = y := by injection h
      exact hxy (ih1.mpr hx)

theorem pyCmp_lt_trans :
    ∀ a b : PyVal, (∀ c, pyCmp a b = .lt → pyCmp b c = .lt → pyCmp a c = .lt) := by
  refine pyCmp.induct
    (fun a b => ∀ c, pyCmp a b = .lt → pyCmp b c = .lt → pyCmp a c = .lt)
    (fun xs ys => ∀ zs, pyCmpList xs ys = .lt → pyCmpList ys zs = .lt → pyCmpList xs zs = .lt)
    ?_ ?_ ?_ ?_ ?_ ?_ ?_ ?_ ?_ ?_ ?_ ?_ ?_ ?_ ?_
  · intro c h1 _; exact Ordering.noConfusion h1
  · intro x hx c _ h2
    cases x with
    | pnone => exact absurd rfl hx
    | pint n =>
      cases c with
      | pnone => exact Ordering.noConfusion h2
      | pint k => rfl
      | pstr s => rfl
      | plist l => rfl
    | pstr s =>
      cases c with
      | pnone => exact Ordering.noConfusion h2
      | pint k => exact Ordering.noConfusion h2
      | pstr t => rfl
      | plist l => rfl
    | plist l =>
      cases c with
      | pnone => exact Ordering.noConfusion h2
      | pint k => exact Ordering.noConfusion h2
      | pstr t => rfl
      | plist l2 => rfl
  · intro t h1 _ c h2 _
    cases t with
    | pnone => exact absurd rfl h1
    | pint n => exact Ordering.noConfusion h2
    | pstr s => exact Ordering.noConfusion h2
    | plist l => exact Ordering.noConfusion h2
  · intro m n c h1 h2
    cases c with
    | pnone => exact Ordering.noConfusion h2
    | pint k => exact intCmp_lt_iff.mpr (lt_trans (intCmp_lt_iff.mp h1) (intCmp_lt_iff.mp h2))
    | pstr s => rfl
    | plist l => rfl
  · intro n x h1 h2 c h3 h4
    cases x with
    | pnone => exact absurd rfl h1
    | pint k => exact absurd rfl (h2 k)
    | pstr s =>
      cases c with
      | pnone => exact Ordering.noConfusion h4
      | pint k => exact Ordering.noConfusion h4
      | pstr t => rfl
      | plist l => rfl
    | plist l =>
      cases c with
      | pnone => exact Ordering.noConfusion h4
      | pint k => exact Ordering.noConfusion h4
      | pstr t => rfl
      | plist l2 => rfl
  · intro t n h1 h2 h3 c h4 h5
    cases t with
    | pnone => exact absurd rfl h1
    | pint k => exact absurd rfl (h2 k)
    | pstr s => exact Ordering.noConfusion h4
    | plist l => exact Ordering.noConfusion h4
  · intro xs ys ih c h1 h2
    cases c with
    | pnone => exact Ordering.noConfusion h2
    | pint k => exact Ordering.noConfusion h2
    | pstr s => rfl
    | plist zs => exact ih zs h1 h2
  · intro xs s c h1 h2
    cases c with
    | pnone => exact Ordering.noConfusion h2
    | pint k => exact Ordering.noConfusion h2
    | pstr t => rfl
    | plist zs => exact Ordering.noConfusion h2
  · intro s xs c h1 _; exact Ordering.noConfusion h1
  · intro s t c h1 h2
    cases c with
    | pnone => exact Ordering.noConfusion h2
    | pint k => exact Ordering.noConfusion h2
    | pstr u => exact charListCmp_lt_trans s.data t.data u.data h1 h2
    | plist zs => exact Ordering.noConfusion h2
  · intro zs h1 _; exact Ordering.noConfusion h1
  · intro y ys zs _ h2
    cases zs with
    | nil => exact Ordering.noConfusion h2
    | cons z zs' => rfl
  · intro x xs zs h1 _; exact Ordering.noConfusion h1
  · intro x xs y ys hxy ih1 ih2 zs h1 h2
    have hx : x = y := (pyCmp_eq_iff x y).mp hxy
    subst hx
    cases zs with
    | nil => exact Ordering.noConfusion h2
    | cons z zs' =>
      simp only [pyCmpList] at h1 h2 ⊢
      rw [hxy] at h1
      rcases hxz : pyCmp x z with _ | _ | _ <;> rw [hxz] at h2
      · exact ih2 zs' h1 h2
      · exact Ordering.noConfusion h2
  · intro x xs y ys hxy ih1 zs h1 h2
    cases zs with
    | nil => exact Ordering.noConfusion h2
    | cons z zs' =>
      simp only [pyCmpList] at h1 h2 ⊢
      rcases hv : pyCmp x y with _ | _ | _ <;> rw [hv] at h1
      · rcases hyz : pyCmp y z with _ | _ | _ <;> rw [hyz] at h2
        · rw [ih1 z hv hyz]
        · have hy : y = z := (pyCmp_eq_iff y z).mp hyz
          subst hy
          rw [hv]
        · exact Ordering.noConfusion h2
      · exact absurd hv (fun h => hxy h)
      · exact Ordering.noConfusion h1

theorem pyLe_iff {a b : PyVal} : pyLe a b ↔ (pyCmp a b = .lt ∨ a = b) := by
  unfold pyLe
  rcases h : pyCmp a b with _ | _ | _
  · simp
  · simp
    exact (pyCmp_eq_iff a b).mp h
  · simp
    intro hc
    rw [(pyCmp_eq_iff a b).mpr hc] at h
    cases h

instance : IsTotal PyVal pyLe := by
  constructor
  intro a b
  rcases h : pyCmp a b with _ | _ | _
  · left; unfold pyLe; rw [h]; simp
  · left; unfold pyLe; rw [h]; simp
  · right; unfold pyLe
    rw [← pyCmp_swap a b, h]
    simp [Ordering.swap]

instance : IsTrans PyVal pyLe := by
  constructor
  intro a b c hab hbc
  rcases pyLe_iff.mp hab with h1 | h1
  · rcases pyLe_iff.mp hbc with h2 | h2
    · exact pyLe_iff.mpr (Or.inl (pyCmp_lt_trans a b c h1 h2))
    · subst h2; exact pyLe_iff.mpr (Or.inl h1)
  · subst h1; exact hbc

instance : IsAntisymm PyVal pyLe := by
  constructor
  intro a b hab hba
  rcases pyLe_iff.mp hab with h1 | h1
  · rcases pyLe_iff.mp hba with h2 | h2
    · exact absurd (pyCmp_lt_trans a b a h1 h2)
        (by rw [(pyCmp_eq_iff a a).mpr rfl]; simp)
    · exact h2.symm
  · exact h1

theorem pySort_perm (xs : List PyVal) : (pySort xs).Perm xs :=
  List.perm_insertionSort pyLe xs

theorem pySort_eq_of_perm {xs ys : List PyVal} (h : xs.Perm ys) : pySort xs = pySort ys :=
  List.eq_of_perm_of_sorted ((pySort_perm xs).trans (h.trans (pySort_perm ys).symm))
    (List.sorted_insertionSort pyLe xs) (List.sorted_insertionSort pyLe ys)

theorem perm_of_pySort_eq {xs ys : List PyVal} (h : pySort xs = pySort ys) : xs.Perm ys :=
  (pySort_perm xs).symm.trans (h ▸ pySort_perm ys)

theorem pyEqB_iff {a b : PyVal} : pyEqB a b = true ↔ a = b := by
  unfold pyEqB
  rcases h : pyCmp a b with _ | _ | _
  · constructor
    · intro hc; exact Bool.noConfusion hc
    · intro hc
      rw [(pyCmp_eq_iff a b).mpr hc] at h
      exact Ordering.noConfusion h
  · constructor
    · intro _; exact (pyCmp_eq_iff a b).mp h
    · intro _; rfl
  · constructor
    · intro hc; exact Bool.noConfusion hc
    · intro hc
      rw [(pyCmp_eq_iff a b).mpr hc] at h
      exact Ordering.noConfusion h

/-! ## Decoder lemmas -/

theorem splitLine_eq :
    ∀ {buf l r : List Char}, splitLine buf = some (l, r) → buf = l ++ '\r' :: '\n' :: r := by
  intro buf
  induction buf with
  | nil => intro l r h; exact Option.noConfusion h
  | cons c rest ih =>
    intro l r h
    simp only [splitLine] at h
    by_cases hc : c = '\r' ∧ rest.head? = some '\n'
    · rw [if_pos hc] at h
      injection h with h1
      injection h1 with h1 h2
      subst h1; subst h2
      obtain ⟨hc1, hc2⟩ := hc
      subst hc1
      cases rest with
      | nil => exact Option.noConfusion hc2
      | cons r0 rt =>
        have : r0 = '\n' := by
          injection hc2 with h'
        subst this
        rfl
    · rw [if_neg hc] at h
      rcases hsl : splitLine rest with _ | ⟨l', r'⟩ <;> rw [hsl] at h
      · exact Option.noConfusion h
      · injection h with hp
        injection hp with hp1 hp2
        subst hp2
        rw [← hp1]
        rw [ih hsl]
        rfl

theorem splitLine_length {buf l r : List Char} (h : splitLine buf = some (l, r)) :
    buf.length = l.length + 2 + r.length := by
  rw [splitLine_eq h]
  simp [List.length_append]
  omega

theorem splitLine_append :
    ∀ {buf l r : List Char}, splitLine buf = some (l, r) →
      ∀ ext, splitLine (buf ++ ext) = some (l, r ++ ext) := by
  intro buf
  induction buf with
  | nil => intro l r h; exact Option.noConfusion h
  | cons c rest ih =>
    intro l r h ext
    simp only [splitLine] at h
    by_cases hc : c = '\r' ∧ rest.head? = some '\n'
    · rw [if_pos hc] at h
      injection h with h1
      injection h1 with h1 h2
      subst h1; subst h2
      obtain ⟨hc1, hc2⟩ := hc
      subst hc1
      cases rest with
      | nil => exact Option.noConfusion hc2
      | cons r0 rt =>
        have : r0 = '\n' := by
          injection hc2 with h'
        subst this
        rfl
    · rw [if_neg hc] at h
      rcases hsl : splitLine rest with _ | ⟨l', r'⟩ <;> rw [hsl] at h
      · exact Option.noConfusion h
      · injection h with hp
        injection hp with hp1 hp2
        subst hp1; subst hp2
        have hrest : rest ≠ [] := by
          intro he
          rw [he] at hsl
          exact Option.noConfusion hsl
        have hc' : ¬ (c = '\r' ∧ (rest ++ ext).head? = some '\n') := by
          intro ⟨hx1, hx2⟩
          apply hc
          refine ⟨hx1, ?_⟩
          cases rest with
          | nil => exact absurd rfl hrest
          | cons r0 rt => exact hx2
        show splitLine (c :: (rest ++ ext)) = some (c :: l', r' ++ ext)
        simp only [splitLine]
        rw [if_neg hc']
        rw [ih hsl ext]

theorem splitLine_noCR :
    ∀ {l : List Char}, (∀ c ∈ l, c ≠ '\r') →
      ∀ r, splitLine (l ++ '\r' :: '\n' :: r) = some (l, r) := by
  intro l
  induction l with
  | nil =>
    intro _ r
    rfl
  | cons c cs ih =>
    intro hnc r
    have hc : c ≠ '\r' := hnc c (List.mem_cons_self c cs)
    show splitLine (c :: (cs ++ '\r' :: '\n' :: r)) = _
    simp only [splitLine]
    rw [if_neg (by intro hx; exact hc hx.1)]
    rw [ih (fun d hd => hnc d (List.mem_cons_of_mem c hd)) r]

theorem readBulk_ok_iff {n : Nat} {buf rest : List Char} {v : ReplyValue} :
    readBulk n buf = .ok v rest ↔
      (n + 2 ≤ buf.length ∧ (buf.drop n).take 2 = ['\r', '\n'] ∧
        v = .bulk (buf.take n) ∧ rest = buf.drop (n + 2)) := by
  unfold readBulk
  by_cases hlen : buf.length < n + 2
  · rw [if_pos hlen]
    constructor
    · intro h; exact DecodeR.noConfusion h
    · intro ⟨h1, _⟩; omega
  · rw [if_neg hlen]
    by_cases hcrlf : (buf.drop n).take 2 = ['\r', '\n']
    · rw [if_pos hcrlf]
      constructor
      · intro h
        injection h with h1 h2
        exact ⟨by omega, hcrlf, h1.symm, h2.symm⟩
      · intro ⟨_, _, h3, h4⟩
        rw [h3, h4]
    · rw [if_neg hcrlf]
      constructor
      · intro h; exact DecodeR.noConfusion h
      · intro ⟨_, h2, _⟩; exact absurd h2 hcrlf

theorem readBulk_ok_length {n : Nat} {buf rest : List Char} {v : ReplyValue}
    (h : readBulk n buf = .ok v rest) : rest.length < buf.length := by
  obtain ⟨h1, _, _, h4⟩ := readBulk_ok_iff.mp h
  rw [h4, List.length_drop]
  omega

theorem readBulk_ok_append {n : Nat} {buf rest : List Char} {v : ReplyValue}
    (h : readBulk n buf = .ok v rest) (ext : List Char) :
    readBulk n (buf ++ ext) = .ok v (rest ++ ext) := by
  obtain ⟨h1, h2, h3, h4⟩ := readBulk_ok_iff.mp h
  apply readBulk_ok_iff.mpr
  refine ⟨?_, ?_, ?_, ?_⟩
  · rw [List.length_append]; omega
  · rw [List.drop_append_of_le_length (by omega)]
    rw [List.take_append_of_le_length (by rw [List.length_drop]; omega)]
    exact h2
  · rw [h3, List.take_append_of_le_length (by omega)]
  · rw [h4, List.drop_append_of_le_length (by omega)]

theorem readBulk_protoErr_append {n : Nat} {buf : List Char}
    (h : readBulk n buf = .protoErr) (ext : List Char) :
    readBulk n (buf ++ ext) = .protoErr := by
  unfold readBulk at h ⊢
  by_cases hlen : buf.length < n + 2
  · rw [if_pos hlen] at h
    exact DecodeR.noConfusion h
  · rw [if_neg hlen] at h
    by_cases hcrlf : (buf.drop n).take 2 = ['\r', '\n']
    · rw [if_pos hcrlf] at h
      exact DecodeR.noConfusion h
    · rw [if_neg hcrlf] at h
      rw [if_neg (by rw [List.length_append]; omega)]
      rw [List.drop_append_of_le_length (by omega)]
      rw [List.take_append_of_le_length (by rw [List.length_drop]; omega)]
      rw [if_neg hcrlf]

theorem readBulk_ok_suffix {n : Nat} {buf rest : List Char} {v : ReplyValue}
    (h : readBulk n buf = .ok v rest) : ∃ p, buf = p ++ rest := by
  obtain ⟨h1, _, _, h4⟩ := readBulk_ok_iff.mp h
  exact ⟨buf.take (n + 2), by rw [h4, List.take_append_drop]⟩

theorem readBulk_encode (s rest : List Char) :
    readBulk s.length (s ++ '\r' :: '\n' :: rest) = .ok (.bulk s) rest := by
  apply readBulk_ok_iff.mpr
  refine ⟨?_, ?_, ?_, ?_⟩
  · simp [List.length_append]
  · rw [List.drop_left]
    rfl
  · rw [List.take_left]
  · rw [show s.length + 2 = (s ++ ['\r', '\n']).length by simp [List.length_append]]
    rw [show s ++ '\r' :: '\n' :: rest = (s ++ ['\r', '\n']) ++ rest by simp]
    rw [List.drop_left]

/-- The combined decoder invariants, proved in one induction over the
fuel: a successful decode strictly consumes from the front of the buffer
(progress and suffix), is stable under extra fuel (monotonicity), and is
stable under appending further bytes to the buffer; a protocol error is
likewise stable under extra fuel and under appended bytes. -/
theorem decode_invariants : ∀ fuel : Nat,
    (∀ buf v rest, decodeF fuel buf = .ok v rest →
       rest.length < buf.length ∧ (∃ p, buf = p ++ rest) ∧
       decodeF (fuel + 1) buf = .ok v rest ∧
       (∀ ext, decodeF fuel (buf ++ ext) = .ok v (rest ++ ext))) ∧
    (∀ buf, decodeF fuel buf = .protoErr →
       decodeF (fuel + 1) buf = .protoErr ∧
       (∀ ext, decodeF fuel (buf ++ ext) = .protoErr)) ∧
    (∀ n buf vs rest, decodeMF fuel n buf = .ok vs rest →
       rest.length ≤ buf.length ∧ (∃ p, buf = p ++ rest) ∧
       decodeMF (fuel + 1) n buf = .ok vs rest ∧
       (∀ ext, decodeMF fuel n (buf ++ ext) = .ok vs (rest ++ ext))) ∧
    (∀ n buf, decodeMF fuel n buf = .protoErr →
       decodeMF (fuel + 1) n buf = .protoErr ∧
       (∀ ext, decodeMF fuel n (buf ++ ext) = .protoErr)) := by
  intro fuel
  induction fuel with
  | zero =>
    refine ⟨?_, ?_, ?_, ?_⟩
    · intro buf v rest h; exact DecodeR.noConfusion h
    · intro buf h; exact DecodeR.noConfusion h
    · intro n buf vs rest h; exact DecodeRs.noConfusion h
    · intro n buf h; exact DecodeRs.noConfusion h
  | succ fuel ih =>
    obtain ⟨ihFok, ihFerr, ihMok, ihMerr⟩ := ih
    refine ⟨?_, ?_, ?_, ?_⟩
    · -- decodeF ok
      intro buf v rest h
      cases buf with
      | nil => exact DecodeR.noConfusion h
      | cons t tail =>
        simp only [decodeF] at h
        rcases hsl : splitLine tail with _ | ⟨line, rest0⟩
        · rw [hsl] at h; exact DecodeR.noConfusion h
        · simp only [hsl] at h
          have hlen : rest0.length + 2 ≤ tail.length := by
            have := splitLine_length hsl; omega
          have hsfx : t :: tail = (t :: (line ++ ['\r', '\n'])) ++ rest0 := by
            rw [splitLine_eq hsl]; simp
          by_cases ht1 : t = '+'
          · rw [if_pos ht1] at h
            injection h with h1 h2
            subst h1; subst h2
            refine ⟨by simp only [List.length_cons]; omega, ⟨_, hsfx⟩, ?_, ?_⟩
            · simp only [decodeF, hsl]
              rw [if_pos ht1]
            · intro ext
              show decodeF (fuel + 1) (t :: (tail ++ ext)) = _
              simp only [decodeF, splitLine_append hsl ext]
              rw [if_pos ht1]
          · rw [if_neg ht1] at h
            by_cases ht2 : t = '-'
            · rw [if_pos ht2] at h
              injection h with h1 h2
              subst h1; subst h2
              refine ⟨by simp only [List.length_cons]; omega, ⟨_, hsfx⟩, ?_, ?_⟩
              · simp only [decodeF, hsl]
                rw [if_neg ht1, if_pos ht2]
              · intro ext
                show decodeF (fuel + 1) (t :: (tail ++ ext)) = _
                simp only [decodeF, splitLine_append hsl ext]
                rw [if_neg ht1, if_pos ht2]
            · rw [if_neg ht2] at h
              by_cases ht3 : t = ':'
              · rw [if_pos ht3] at h
                rcases hpi : parseIntLine line with _ | n
                · rw [hpi] at h; exact DecodeR.noConfusion h
                · simp only [hpi] at h
                  injection h with h1 h2
                  subst h1; subst h2
                  refine ⟨by simp only [List.length_cons]; omega, ⟨_, hsfx⟩, ?_, ?_⟩
                  · simp only [decodeF, hsl]
                    rw [if_neg ht1, if_neg ht2, if_pos ht3]
                    simp only [hpi]
                  · intro ext
                    show decodeF (fuel + 1) (t :: (tail ++ ext)) = _
                    simp only [decodeF, splitLine_append hsl ext]
                    rw [if_neg ht1, if_neg ht2, if_pos ht3]
                    simp only [hpi]
              · rw [if_neg ht3] at h
                by_cases ht4 : t = '$'
                · rw [if_pos ht4] at h
                  rcases hpi : parseIntLine line with _ | n
                  · rw [hpi] at h; exact DecodeR.noConfusion h
                  · simp only [hpi] at h
                    by_cases hn1 : n = -1
                    · rw [if_pos hn1] at h
                      injection h with h1 h2
                      subst h1; subst h2
                      refine ⟨by simp only [List.length_cons]; omega, ⟨_, hsfx⟩, ?_, ?_⟩
                      · simp only [decodeF, hsl]
                        rw [if_neg ht1, if_neg ht2, if_neg ht3, if_pos ht4]
                        simp only [hpi]
                        rw [if_pos hn1]
                      · intro ext
                        show decodeF (fuel + 1) (t :: (tail ++ ext)) = _
                        simp only [decodeF, splitLine_append hsl ext]
                        rw [if_neg ht1, if_neg ht2, if_neg ht3, if_pos ht4]
                        simp only [hpi]
                        rw [if_pos hn1]
                    · rw [if_neg hn1] at h
                      by_cases hn2 : n < 0
                      · rw [if_pos hn2] at h; exact DecodeR.noConfusion h
                      · rw [if_neg hn2] at h
                        obtain ⟨p2, hp2⟩ := readBulk_ok_suffix h
                        refine ⟨?_, ?_, ?_, ?_⟩
                        · have := readBulk_ok_length h
                          simp only [List.length_cons]
                          omega
                        · refine ⟨t :: (line ++ ['\r', '\n']) ++ p2, ?_⟩
                          rw [hsfx, hp2]
                          simp
                        · simp only [decodeF, hsl]
                          rw [if_neg ht1, if_neg ht2, if_neg ht3, if_pos ht4]
                          simp only [hpi]
                          rw [if_neg hn1, if_neg hn2]
                          exact h
                        · intro ext
                          show decodeF (fuel + 1) (t :: (tail ++ ext)) = _
                          simp only [decodeF, splitLine_append hsl ext]
                          rw [if_neg ht1, if_neg ht2, if_neg ht3, if_pos ht4]
                          simp only [hpi]
                          rw [if_neg hn1, if_neg hn2]
                          exact readBulk_ok_append h ext
                · rw [if_neg ht4] at h
                  by_cases ht5 : t = '*'
                  · rw [if_pos ht5] at h
                    rcases hpi : parseIntLine line with _ | n
                    · rw [hpi] at h; exact DecodeR.noConfusion h
                    · simp only [hpi] at h
                      by_cases hn1 : n = -1
                      · rw [if_pos hn1] at h
                        injection h with h1 h2
                        subst h1; subst h2
                        refine ⟨by simp only [List.length_cons]; omega, ⟨_, hsfx⟩, ?_, ?_⟩
                        · simp only [decodeF, hsl]
                          rw [if_neg ht1, if_neg ht2, if_neg ht3, if_neg ht4, if_pos ht5]
                          simp only [hpi]
                          rw [if_pos hn1]
                        · intro ext
                          show decodeF (fuel + 1) (t :: (tail ++ ext)) = _
                          simp only [decodeF, splitLine_append hsl ext]
                          rw [if_neg ht1, if_neg ht2, if_neg ht3, if_neg ht4, if_pos ht5]
                          simp only [hpi]
                          rw [if_pos hn1]
                      · rw [if_neg hn1] at h
                        by_cases hn2 : n < 0
                        · rw [if_pos hn2] at h; exact DecodeR.noConfusion h
                        · rw [if_neg hn2] at h
                          rcases hmf : decodeMF fuel n.toNat rest0 with ⟨vs, rest'⟩ | _ | _
                          · simp only [hmf] at h
                            injection h with h1 h2
                            subst h1; subst h2
                            obtain ⟨hm1, ⟨p2, hp2⟩, hm3, hm4⟩ := ihMok _ _ _ _ hmf
                            refine ⟨?_, ?_, ?_, ?_⟩
                            · simp only [List.length_cons]; omega
                            · refine ⟨t :: (line ++ ['\r', '\n']) ++ p2, ?_⟩
                              rw [hsfx, hp2]
                              simp
                            · simp only [decodeF, hsl]
                              rw [if_neg ht1, if_neg ht2, if_neg ht3, if_neg ht4, if_pos ht5]
                              simp only [hpi]
                              rw [if_neg hn1, if_neg hn2]
                              simp only [hm3]
                            · intro ext
                              show decodeF (fuel + 1) (t :: (tail ++ ext)) = _
                              simp only [decodeF, splitLine_append hsl ext]
                              rw [if_neg ht1, if_neg ht2, if_neg ht3, if_neg ht4, if_pos ht5]
                              simp only [hpi]
                              rw [if_neg hn1, if_neg hn2]
                              simp only [hm4 ext]
                          · rw [hmf] at h; exact DecodeR.noConfusion h
                          · rw [hmf] at h; exact DecodeR.noConfusion h
                  · rw [if_neg ht5] at h
                    exact DecodeR.noConfusion h
    · -- decodeF protoErr
      intro buf h
      cases buf with
      | nil => exact DecodeR.noConfusion h
      | cons t tail =>
        simp only [decodeF] at h
        rcases hsl : splitLine tail with _ | ⟨line, rest0⟩
        · rw [hsl] at h; exact DecodeR.noConfusion h
        · simp only [hsl] at h
          by_cases ht1 : t = '+'
          · rw [if_pos ht1] at h; exact DecodeR.noConfusion h
          · rw [if_neg ht1] at h
            by_cases ht2 : t = '-'
            · rw [if_pos ht2] at h; exact DecodeR.noConfusion h
            · rw [if_neg ht2] at h
              by_cases ht3 : t = ':'
              · rw [if_pos ht3] at h
                rcases hpi : parseIntLine line with _ | n
                · refine ⟨?_, ?_⟩
                  · simp only [decodeF, hsl]
                    rw [if_neg ht1, if_neg ht2, if_pos ht3]
                    simp only [hpi]
                  · intro ext
                    show decodeF (fuel + 1) (t :: (tail ++ ext)) = _
                    simp only [decodeF, splitLine_append hsl ext]
                    rw [if_neg ht1, if_neg ht2, if_pos ht3]
                    simp only [hpi]
                · simp only [hpi] at h; exact DecodeR.noConfusion h
              · rw [if_neg ht3] at h
                by_cases ht4 : t = '$'
                · rw [if_pos ht4] at h
                  rcases hpi : parseIntLine line with _ | n
                  · refine ⟨?_, ?_⟩
                    · simp only [decodeF, hsl]
                      rw [if_neg ht1, if_neg ht2, if_neg ht3, if_pos ht4]
                      simp only [hpi]
                    · intro ext
                      show decodeF (fuel + 1) (t :: (tail ++ ext)) = _
                      simp only [decodeF, splitLine_append hsl ext]
                      rw [if_neg ht1, if_neg ht2, if_neg ht3, if_pos ht4]
                      simp only [hpi]
                  · simp only [hpi] at h
                    by_cases hn1 : n = -1
                    · rw [if_pos hn1] at h; exact DecodeR.noConfusion h
                    · rw [if_neg hn1] at h
                      by_cases hn2 : n < 0
                      · refine ⟨?_, ?_⟩
                        · simp only [decodeF, hsl]
                          rw [if_neg ht1, if_neg ht2, if_neg ht3, if_pos ht4]
                          simp only [hpi]
                          rw [if_neg hn1, if_pos hn2]
                        · intro ext
                          show decodeF (fuel + 1) (t :: (tail ++ ext)) = _
                          simp only [decodeF, splitLine_append hsl ext]
                          rw [if_neg ht1, if_neg ht2, if_neg ht3, if_pos ht4]
                          simp only [hpi]
                          rw [if_neg hn1, if_pos hn2]
                      · rw [if_neg hn2] at h
                        refine ⟨?_, ?_⟩
                        · simp only [decodeF, hsl]
                          rw [if_neg ht1, if_neg ht2, if_neg ht3, if_pos ht4]
                          simp only [hpi]
                          rw [if_neg hn1, if_neg hn2]
                          exact h
                        · intro ext
                          show decodeF (fuel + 1) (t :: (tail ++ ext)) = _
                          simp only [decodeF, splitLine_append hsl ext]
                          rw [if_neg ht1, if_neg ht2, if_neg ht3, if_pos ht4]
                          simp only [hpi]
                          rw [if_neg hn1, if_neg hn2]
                          exact readBulk_protoErr_append h ext
                · rw [if_neg ht4] at h
                  by_cases ht5 : t = '*'
                  · rw [if_pos ht5] at h
                    rcases hpi : parseIntLine line with _ | n
                    · refine ⟨?_, ?_⟩
                      · simp only [decodeF, hsl]
                        rw [if_neg ht1, if_neg ht2, if_neg ht3, if_neg ht4, if_pos ht5]
                        simp only [hpi]
                      · intro ext
                        show decodeF (fuel + 1) (t :: (tail ++ ext)) = _
                        simp only [decodeF, splitLine_append hsl ext]
                        rw [if_neg ht1, if_neg ht2, if_neg ht3, if_neg ht4, if_pos ht5]
                        simp only [hpi]
                    · simp only [hpi] at h
                      by_cases hn1 : n = -1
                      · rw [if_pos hn1] at h; exact DecodeR.noConfusion h
                      · rw [if_neg hn1] at h
                        by_cases hn2 : n < 0
                        · refine ⟨?_, ?_⟩
                          · simp only [decodeF, hsl]
                            rw [if_neg ht1, if_neg ht2, if_neg ht3, if_neg ht4, if_pos ht5]
                            simp only [hpi]
                            rw [if_neg hn1, if_pos hn2]
                          · intro ext
                            show decodeF (fuel + 1) (t :: (tail ++ ext)) = _
                            simp only [decodeF, splitLine_append hsl ext]
                            rw [if_neg ht1, if_neg ht2, if_neg ht3, if_neg ht4, if_pos ht5]
                            simp only [hpi]
                            rw [if_neg hn1, if_pos hn2]
                        · rw [if_neg hn2] at h
                          rcases hmf : decodeMF fuel n.toNat rest0 with ⟨vs, rest'⟩ | _ | _
                          · rw [hmf] at h; exact DecodeR.noConfusion h
                          · rw [hmf] at h; exact DecodeR.noConfusion h
                          · obtain ⟨hm1, hm2⟩ := ihMerr _ _ hmf
                            refine ⟨?_, ?_⟩
                            · simp only [decodeF, hsl]
                              rw [if_neg ht1, if_neg ht2, if_neg ht3, if_neg ht4, if_pos ht5]
                              simp only [hpi]
                              rw [if_neg hn1, if_neg hn2]
                              simp only [hm1]
                            · intro ext
                              show decodeF (fuel + 1) (t :: (tail ++ ext)) = _
                              simp only [decodeF, splitLine_append hsl ext]
                              rw [if_neg ht1, if_neg ht2, if_neg ht3, if_neg ht4, if_pos ht5]
                              simp only [hpi]
                              rw [if_neg hn1, if_neg hn2]
                              simp only [hm2 ext]
                  · rw [if_neg ht5] at h
                    refine ⟨?_, ?_⟩
                    · simp only [decodeF, hsl]
                      rw [if_neg ht1, if_neg ht2, if_neg ht3, if_neg ht4, if_neg ht5]
                    · intro ext
                      show decodeF (fuel + 1) (t :: (tail ++ ext)) = _
                      simp only [decodeF, splitLine_append hsl ext]
                      rw [if_neg ht1, if_neg ht2, if_neg ht3, if_neg ht4, if_neg ht5]
    · -- decodeMF ok
      intro n buf vs rest h
      cases n with
      | zero =>
        simp only [decodeMF] at h
        injection h with h1 h2
        subst h1; subst h2
        refine ⟨le_refl _, ⟨[], rfl⟩, rfl, fun ext => rfl⟩
      | succ k =>
        simp only [decodeMF] at h
        rcases hf : decodeF fuel buf with ⟨v1, r1⟩ | _ | _
        · simp only [hf] at h
          rcases hm : decodeMF fuel k r1 with ⟨vs2, r2⟩ | _ | _
          · simp only [hm] at h
            injection h with h1 h2
            subst h1; subst h2
            obtain ⟨hf1, ⟨p1, hp1⟩, hf3, hf4⟩ := ihFok _ _ _ hf
            obtain ⟨hm1, ⟨p2, hp2⟩, hm3, hm4⟩ := ihMok _ _ _ _ hm
            refine ⟨by omega, ⟨p1 ++ p2, by rw [hp1, hp2]; simp⟩, ?_, ?_⟩
            · simp only [decodeMF, hf3, hm3]
            · intro ext
              simp only [decodeMF, hf4 ext, hm4 ext]
          · rw [hm] at h; exact DecodeRs.noConfusion h
          · rw [hm] at h; exact DecodeRs.noConfusion h
        · rw [hf] at h; exact DecodeRs.noConfusion h
        · rw [hf] at h; exact DecodeRs.noConfusion h
    · -- decodeMF protoErr
      intro n buf h
      cases n with
      | zero => exact DecodeRs.noConfusion h
      | succ k =>
        simp only [decodeMF] at h
        rcases hf : decodeF fuel buf with ⟨v1, r1⟩ | _ | _
        · simp only [hf] at h
          rcases hm : decodeMF fuel k r1 with ⟨vs2, r2⟩ | _ | _
          · rw [hm] at h; exact DecodeRs.noConfusion h
          · rw [hm] at h; exact DecodeRs.noConfusion h
          · obtain ⟨hf1, ⟨p1, hp1⟩, hf3, hf4⟩ := ihFok _ _ _ hf
            obtain ⟨hm1, hm2⟩ := ihMerr _ _ hm
            refine ⟨?_, ?_⟩
            · simp only [decodeMF, hf3, hm1]
            · intro ext
              simp only [decodeMF, hf4 ext, hm2 ext]
        · rw [hf] at h; exact DecodeRs.noConfusion h
        · obtain ⟨hf1, hf2⟩ := ihFerr _ hf
          refine ⟨?_, ?_⟩
          · simp only [decodeMF, hf1]
          · intro ext
            simp only [decodeMF, hf2 ext]

theorem decodeF_ok_mono {fuel fuel' : Nat} {buf : List Char} {v : ReplyValue} {rest : List Char}
    (hle : fuel ≤ fuel') (h : decodeF fuel buf = .ok v rest) :
    decodeF fuel' buf = .ok v rest := by
  induction hle with
  | refl => exact h
  | step _ ih => exact ((decode_invariants _).1 _ _ _ ih).2.2.1

theorem decodeF_protoErr_mono {fuel fuel' : Nat} {buf : List Char}
    (hle : fuel ≤ fuel') (h : decodeF fuel buf = .protoErr) :
    decodeF fuel' buf = .protoErr := by
  induction hle with
  | refl => exact h
  | step _ ih => exact ((decode_invariants _).2.1 _ ih).1

theorem decode_ok_length {buf : List Char} {v : ReplyValue} {rest : List Char}
    (h : decode buf = .ok v rest) : rest.length < buf.length :=
  ((decode_invariants _).1 _ _ _ h).1

theorem decode_ok_suffix {buf : List Char} {v : ReplyValue} {rest : List Char}
    (h : decode buf = .ok v rest) : ∃ p, buf = p ++ rest :=
  ((decode_invariants _).1 _ _ _ h).2.1

theorem decode_ok_append {buf : List Char} {v : ReplyValue} {rest : List Char}
    (h : decode buf = .ok v rest) (ext : List Char) :
    decode (buf ++ ext) = .ok v (rest ++ ext) := by
  unfold decode at h ⊢
  have hle : buf.length + 1 ≤ (buf ++ ext).length + 1 := by
    simp [List.length_append]
  exact ((decode_invariants _).1 _ _ _ (decodeF_ok_mono hle h)).2.2.2 ext

theorem decode_protoErr_append {buf : List Char} (h : decode buf = .protoErr) (ext : List Char) :
    decode (buf ++ ext) = .protoErr := by
  unfold decode at h ⊢
  have hle : buf.length + 1 ≤ (buf ++ ext).length + 1 := by
    simp [List.length_append]
  exact ((decode_invariants _).2.1 _ (decodeF_protoErr_mono hle h)).2 ext

theorem DecodesTo_length : ∀ {buf : List Char} {rs : List ReplyValue},
    DecodesTo buf rs → rs.length ≤ buf.length := by
  intro buf rs h
  induction h with
  | nil => exact Nat.le_refl 0
  | cons hdec _ ih =>
    have := decode_ok_length hdec
    simp only [List.length_cons]
    omega

theorem feedChunks_ok : ∀ (chunks : List (List Char)) (acc : List Char) {v : ReplyValue}
    {rest : List Char}, decode (acc ++ chunks.foldr (· ++ ·) []) = .ok v rest →
    ∃ rest', feedChunks acc chunks = .ok v rest' := by
  intro chunks
  induction chunks with
  | nil =>
    intro acc v rest h
    simp only [List.foldr_nil, List.append_nil] at h
    exact ⟨rest, by simpa [feedChunks] using h⟩
  | cons c cs ih =>
    intro acc v rest h
    rw [List.foldr_cons, ← List.append_assoc] at h
    simp only [feedChunks]
    rcases hd : decode (acc ++ c) with ⟨v1, r1⟩ | _ | _
    · have happ := decode_ok_append hd (cs.foldr (· ++ ·) [])
      have heq : DecodeR.ok v1 (r1 ++ cs.foldr (· ++ ·) []) = DecodeR.ok v rest :=
        happ.symm.trans h
      injection heq with h1 _
      subst h1
      exact ⟨r1, rfl⟩
    · exact ih (acc ++ c) h
    · have := decode_protoErr_append hd (cs.foldr (· ++ ·) [])
      rw [this] at h
      exact DecodeR.noConfusion h

/-! ## Decimal round trip and the encoder -/

theorem natRevDigits_val : ∀ (fuel n : Nat), n ≤ fuel → digitsVal (natRevDigits fuel n) = n := by
  intro fuel
  induction fuel with
  | zero =>
    intro n h
    interval_cases n
    rfl
  | succ f ih =>
    intro n h
    by_cases hn : n = 0
    · subst hn; rfl
    · simp only [natRevDigits, if_neg hn, digitsVal]
      have hdiv : n / 10 ≤ f := by
        have := Nat.div_lt_self (Nat.pos_of_ne_zero hn) (by omega : 1 < 10)
        omega
      rw [ih _ hdiv]
      omega

theorem natRevDigits_lt : ∀ (fuel n : Nat), ∀ d ∈ natRevDigits fuel n, d < 10 := by
  intro fuel
  induction fuel with
  | zero => intro n d hd; exact absurd hd (List.not_mem_nil d)
  | succ f ih =>
    intro n d hd
    by_cases hn : n = 0
    · rw [hn] at hd
      exact absurd hd (List.not_mem_nil d)
    · simp only [natRevDigits, if_neg hn] at hd
      rcases List.mem_cons.mp hd with h | h
      · subst h; exact Nat.mod_lt n (by omega)
      · exact ih _ d h

theorem digitChar_isDigit {d : Nat} (h : d < 10) : (digitChar d).isDigit = true := by
  interval_cases d <;> decide

theorem digitChar_toNat {d : Nat} (h : d < 10) : (digitChar d).toNat - 48 = d := by
  interval_cases d <;> decide

theorem digitChar_ne_dash {d : Nat} (h : d < 10) : digitChar d ≠ '-' := by
  interval_cases d <;> decide

theorem digitChar_ne_cr {d : Nat} (h : d < 10) : digitChar d ≠ '\r' := by
  interval_cases d <;> decide

theorem parseDigitsAux_digits :
    ∀ (ds : List Nat) (acc : Nat), (∀ d ∈ ds, d < 10) →
      parseDigitsAux (ds.map digitChar) acc =
        some (ds.foldl (fun a d => a * 10 + d) acc) := by
  intro ds
  induction ds with
  | nil => intro acc _; rfl
  | cons d ds ih =>
    intro acc hd
    have hd0 : d < 10 := hd d (List.mem_cons_self d ds)
    simp only [List.map_cons, parseDigitsAux, List.foldl_cons]
    rw [if_pos (digitChar_isDigit hd0), digitChar_toNat hd0]
    exact ih _ (fun e he => hd e (List.mem_cons_of_mem d he))

theorem foldl_reverse_digitsVal :
    ∀ (ds : List Nat) (acc : Nat),
      (ds.reverse).foldl (fun a d => a * 10 + d) acc = acc * 10 ^ ds.length + digitsVal ds := by
  intro ds
  induction ds with
  | nil => intro acc; simp [digitsVal]
  | cons d ds ih =>
    intro acc
    rw [List.reverse_cons, List.foldl_append, ih acc]
    simp only [List.foldl_cons, List.foldl_nil, digitsVal, List.length_cons]
    rw [pow_succ]
    ring

theorem parseDigitsAux_natDigits (n : Nat) : parseDigitsAux (natDigits n) 0 = some n := by
  unfold natDigits
  by_cases hn : n = 0
  · subst hn; rfl
  · rw [if_neg hn]
    rw [show (natRevDigits n n).reverse.map digitChar
          = ((natRevDigits n n).reverse).map digitChar from rfl]
    rw [parseDigitsAux_digits _ 0
      (fun d hd => natRevDigits_lt n n d (List.mem_reverse.mp hd))]
    rw [foldl_reverse_digitsVal]
    rw [natRevDigits_val n n (Nat.le_refl n)]
    simp

theorem natDigits_mem_isDigit (n : Nat) : ∀ c ∈ natDigits n, c.isDigit = true := by
  intro c hc
  unfold natDigits at hc
  by_cases hn : n = 0
  · rw [if_pos hn] at hc
    rcases List.mem_cons.mp hc with h | h
    · subst h; decide
    · exact absurd h (List.not_mem_nil c)
  · rw [if_neg hn] at hc
    obtain ⟨d, hd, hdc⟩ := List.mem_map.mp hc
    rw [← hdc]
    exact digitChar_isDigit (natRevDigits_lt n n d (List.mem_reverse.mp hd))

theorem natDigits_ne_nil (n : Nat) : natDigits n ≠ [] := by
  unfold natDigits
  by_cases hn : n = 0
  · rw [if_pos hn]; intro h; exact List.noConfusion h
  · rw [if_neg hn]
    intro h
    have h2 : natRevDigits n n = [] := by
      have := congrArg List.length h
      simp at this
      exact this
    cases n with
    | zero => exact hn rfl
    | succ m =>
      simp only [natRevDigits, if_neg hn] at h2
      exact List.noConfusion h2

theorem natDigits_not_cr (n : Nat) : ∀ c ∈ natDigits n, c ≠ '\r' := by
  intro c hc he
  have := natDigits_mem_isDigit n c hc
  rw [he] at this
  exact Bool.noConfusion this

theorem parseIntLine_natDigits (n : Nat) : parseIntLine (natDigits n) = some ((n : Int)) := by
  rcases hd : natDigits n with _ | ⟨c, cs⟩
  · exact absurd hd (natDigits_ne_nil n)
  · have hdig : c.isDigit = true := natDigits_mem_isDigit n c (by rw [hd]; exact List.mem_cons_self c cs)
    have hc : c ≠ '-' := by
      intro he
      rw [he] at hdig
      exact Bool.noConfusion hdig
    simp only [parseIntLine]
    rw [if_neg hc, ← hd, parseDigitsAux_natDigits n]
    rfl

theorem decodeF_intLine (fuel n : Nat) (rest : List Char) :
    decodeF (fuel + 1) (':' :: (natDigits n ++ '\r' :: '\n' :: rest)) =
      .ok (.integer ((n : Int))) rest := by
  have hsl : splitLine (natDigits n ++ '\r' :: '\n' :: rest) = some (natDigits n, rest) :=
    splitLine_noCR (natDigits_not_cr n) rest
  simp only [decodeF, hsl, parseIntLine_natDigits n]
  rfl

theorem decodeF_encodeBulk (fuel : Nat) (s rest : List Char) :
    decodeF (fuel + 1) (encodeBulk s ++ rest) = .ok (.bulk s) rest := by
  show decodeF (fuel + 1)
    ('$' :: ((natDigits s.length ++ crlf ++ s ++ crlf) ++ rest)) = _
  have heq : (natDigits s.length ++ crlf ++ s ++ crlf) ++ rest
      = natDigits s.length ++ '\r' :: '\n' :: (s ++ '\r' :: '\n' :: rest) := by
    simp [crlf]
  rw [heq]
  have hsl : splitLine (natDigits s.length ++ '\r' :: '\n' :: (s ++ '\r' :: '\n' :: rest))
      = some (natDigits s.length, s ++ '\r' :: '\n' :: rest) :=
    splitLine_noCR (natDigits_not_cr s.length) _
  have hrb := readBulk_encode s rest
  simp only [decodeF, hsl, parseIntLine_natDigits s.length, Int.toNat_ofNat, hrb]
  rfl

theorem decodeMF_encodeBulks :
    ∀ (elems : List (List Char)) (fuel : Nat) (rest : List Char),
      elems.length + 1 ≤ fuel →
      decodeMF fuel elems.length ((elems.map encodeBulk).foldr (· ++ ·) [] ++ rest) =
        .ok (elems.map .bulk) rest := by
  intro elems
  induction elems with
  | nil =>
    intro fuel rest hfuel
    cases fuel with
    | zero => omega
    | succ f => simp only [List.map_nil, List.foldr_nil, List.nil_append, List.length_nil, decodeMF]
  | cons e es ih =>
    intro fuel rest hfuel
    cases fuel with
    | zero => omega
    | succ f =>
      cases f with
      | zero => simp at hfuel
      | succ f' =>
        show decodeMF (f' + 1 + 1) (es.length + 1) _ = _
        have h1 := decodeF_encodeBulk f' e ((es.map encodeBulk).foldr (· ++ ·) [] ++ rest)
        have h2 := ih (f' + 1) rest (by simp at hfuel; omega)
        simp only [List.map_cons, List.foldr_cons, decodeMF, List.append_assoc, h1, h2]

theorem foldr_append_length_ge (elems : List (List Char)) :
    elems.length ≤ ((elems.map encodeBulk).foldr (· ++ ·) []).length := by
  induction elems with
  | nil => simp
  | cons e es ih =>
    simp only [List.map_cons, List.foldr_cons, List.length_cons, List.length_append]
    have : 1 ≤ (encodeBulk e).length := by
      show 1 ≤ ('$' :: _).length
      simp
    omega

theorem decodeF_encodeFrame (elems : List (List Char)) (fuel : Nat) (rest : List Char)
    (hfuel : elems.length + 2 ≤ fuel) :
    decodeF fuel (encodeFrame elems ++ rest) = .ok (.array (elems.map .bulk)) rest := by
  cases fuel with
  | zero => omega
  | succ f =>
    show decodeF (f + 1)
      ('*' :: ((natDigits elems.length ++ crlf ++ (elems.map encodeBulk).foldr (· ++ ·) []) ++ rest)) = _
    have heq : (natDigits elems.length ++ crlf ++ (elems.map encodeBulk).foldr (· ++ ·) []) ++ rest
        = natDigits elems.length ++ '\r' :: '\n' ::
            ((elems.map encodeBulk).foldr (· ++ ·) [] ++ rest) := by
      simp [crlf]
    rw [heq]
    have hsl : splitLine (natDigits elems.length ++ '\r' :: '\n' ::
        ((elems.map encodeBulk).foldr (· ++ ·) [] ++ rest))
        = some (natDigits elems.length, (elems.map encodeBulk).foldr (· ++ ·) [] ++ rest) :=
      splitLine_noCR (natDigits_not_cr elems.length) _
    have hmf := decodeMF_encodeBulks elems f rest (by omega)
    simp only [decodeF, hsl, parseIntLine_natDigits elems.length, Int.toNat_ofNat, hmf]
    rfl

theorem decode_encodeFrame (elems : List (List Char)) :
    decode (encodeFrame elems) = .ok (.array (elems.map .bulk)) [] := by
  unfold decode
  rw [show encodeFrame elems = encodeFrame elems ++ [] from (List.append_nil _).symm]
  apply decodeF_encodeFrame
  have h1 := foldr_append_length_ge elems
  have h2 : 1 ≤ (natDigits elems.length).length := by
    rcases hd : natDigits elems.length with _ | ⟨c, cs⟩
    · exact absurd hd (natDigits_ne_nil elems.length)
    · simp
  show elems.length + 2 ≤ (encodeFrame elems ++ []).length + 1
  rw [List.append_nil]
  show elems.length + 2 ≤ ('*' :: (natDigits elems.length ++ crlf ++ _)).length + 1
  simp only [List.length_cons, List.length_append]
  show elems.length + 2 ≤ (natDigits elems.length).length + crlf.length +
    ((elems.map encodeBulk).foldr (· ++ ·) []).length + 1 + 1
  show elems.length + 2 ≤ (natDigits elems.length).length + 2 +
    ((elems.map encodeBulk).foldr (· ++ ·) []).length + 1 + 1
  omega

/-! ## Connection machine lemmas -/

theorem DecodesTo_nil : ∀ {buf : List Char}, DecodesTo buf [] → buf = [] := by
  intro buf h
  cases h
  rfl

theorem DecodesTo_cons : ∀ {buf : List Char} {r : ReplyValue} {rs' : List ReplyValue},
    DecodesTo buf (r :: rs') → ∃ rest, decode buf = .ok r rest ∧ DecodesTo rest rs' := by
  intro buf r rs' h
  cases h with
  | cons hdec htail => exact ⟨_, hdec, htail⟩

theorem routeReply_ordinary {st : ConnState} {v : ReplyValue}
    (hm : st.mode = .normal) (hv : isSubAck v = false) :
    routeReply st v = popAndDeliver st v := by
  rcases v with s | s | n | s | _ | xs | _
  · simp only [routeReply, hm]
  · simp only [routeReply, hm]
  · simp only [routeReply, hm]
  · simp only [routeReply, hm]
  · simp only [routeReply, hm]
  · rcases xs with _ | ⟨x, xs'⟩
    · simp only [routeReply, hm]
    · rcases x with k | k | k | k | _ | k | _
      · simp only [routeReply, hm]
      · simp only [routeReply, hm]
      · simp only [routeReply, hm]
      · rcases xs' with _ | ⟨y, ys⟩
        · simp only [routeReply, hm]
        · rcases y with m | m | m | m | _ | m | _
          · simp only [routeReply, hm]
          · simp only [routeReply, hm]
          · simp only [routeReply, hm]
          · have hk : isSubKind k = false := hv
            simp only [routeReply, hm]
            rw [if_neg (by simp [hk])]
          · simp only [routeReply, hm]
          · simp only [routeReply, hm]
          · simp only [routeReply, hm]
      · simp only [routeReply, hm]
      · simp only [routeReply, hm]
      · simp only [routeReply, hm]
  · simp only [routeReply, hm]

/-- The FIFO run characterization: in normal mode, a buffer holding the
complete encodings of `rs` (none of which is a subscription
acknowledgment) resolves, in order, the first `rs.length` entries of the
Pending-Request Queue, delivering the i-th reply to the i-th entry's
callback. -/
theorem processRun : ∀ (rs : List ReplyValue) (fuel : Nat) (st : ConnState),
    st.mode = .normal →
    DecodesTo st.buffer rs →
    (∀ r ∈ rs, isSubAck r = false) →
    rs.length ≤ st.pending.length →
    rs.length < fuel →
    processBufferF fuel st =
      ({ st with pending := st.pending.drop rs.length, buffer := [] },
       (st.pending.zip rs).map (fun p => deliverReply p.1 p.2)) := by
  intro rs
  induction rs with
  | nil =>
    intro fuel st _ hdec _ _ hfuel
    have hbuf := DecodesTo_nil hdec
    cases fuel with
    | zero => omega
    | succ f =>
      simp only [processBufferF, hbuf]
      show (st, []) = _
      rcases st with ⟨mode, pending, subs, buffer, closed⟩
      simp only at hbuf
      subst hbuf
      simp
  | cons r rs' ih =>
    intro fuel st hm hdec hord hlen hfuel
    obtain ⟨rest, hdec1, hdec2⟩ := DecodesTo_cons hdec
    cases fuel with
    | zero => omega
    | succ f =>
      rcases st with ⟨mode, pending, subs, buffer, closed⟩
      simp only at hm hdec1 hlen
      subst hm
      rcases pending with _ | ⟨e, pendTail⟩
      · simp at hlen
      · simp only [processBufferF, hdec1]
        have hro : routeReply
            { mode := Mode.normal, pending := e :: pendTail, subs := subs,
              buffer := rest, closed := closed } r =
            ({ mode := Mode.normal, pending := pendTail, subs := subs,
               buffer := rest, closed := closed }, [deliverReply e r]) := by
          rw [routeReply_ordinary rfl (hord r (List.mem_cons_self r rs'))]
          rfl
        have hih := ih f
          { mode := Mode.normal, pending := pendTail, subs := subs,
            buffer := rest, closed := closed }
          rfl hdec2 (fun r' hr' => hord r' (List.mem_cons_of_mem r hr'))
          (by simp only [List.length_cons] at hlen; simpa using Nat.le_of_succ_le_succ hlen)
          (by simp only [List.length_cons] at hfuel; omega)
        show (let p1 := routeReply _ r; let p2 := processBufferF f p1.1; (p2.1, p1.2 ++ p2.2)) = _
        rw [hro]
        show ((processBufferF f _).1, [deliverReply e r] ++ (processBufferF f _).2) = _
        rw [hih]
        simp

theorem foldl_send_pending : ∀ (es : List PendingEntry) (st : ConnState),
    st.closed = false →
    es.foldl send st = { st with pending := st.pending ++ es } := by
  intro es
  induction es with
  | nil => intro st _; simp
  | cons e es ih =>
    intro st hc
    simp only [List.foldl_cons]
    rw [show send st e = { st with pending := st.pending ++ [e] } by
      unfold send; rw [if_neg (by simp [hc])]]
    rw [ih _ (by simp [hc])]
    simp

theorem zip_map_getElem :
    ∀ (es : List PendingEntry) (rs : List ReplyValue) (i : Nat),
      i < rs.length → rs.length ≤ es.length →
      ((es.zip rs).map (fun p => deliverReply p.1 p.2))[i]? =
        some (deliverReply (es.getD i dfltEntry) (rs.getD i .nullArray)) := by
  intro es
  induction es with
  | nil =>
    intro rs i h1 h2
    have hz : rs.length = 0 := by simpa using h2
    omega
  | cons e es ih =>
    intro rs i h1 h2
    cases rs with
    | nil => simp at h1
    | cons r rs' =>
      cases i with
      | zero => simp [List.getD]
      | succ j =>
        simp only [List.zip_cons_cons, List.map_cons, List.getElem?_cons_succ]
        rw [ih rs' j (by simp at h1; omega) (by simp at h2; omega)]
        simp [List.getD]

/-- The read loop is inert on an empty buffer. -/
theorem processBufferF_empty (fuel : Nat) (st : ConnState) (hb : st.buffer = []) :
    processBufferF fuel st = (st, []) := by
  cases fuel with
  | zero => rfl
  | succ f =>
    simp only [processBufferF, hb]
    rfl

/-- Routing one reply never touches the inbound buffer or the closed
flag. -/
theorem routeReply_state (st : ConnState) (v : ReplyValue) :
    (routeReply st v).1.buffer = st.buffer ∧ (routeReply st v).1.closed = st.closed := by
  have hpop : ∀ (st' : ConnState) (v' : ReplyValue),
      (popAndDeliver st' v').1.buffer = st'.buffer ∧
      (popAndDeliver st' v').1.closed = st'.closed := by
    intro st' v'
    unfold popAndDeliver
    rcases hp : st'.pending with _ | ⟨e, rest⟩
    · exact ⟨rfl, rfl⟩
    · exact ⟨rfl, rfl⟩
  rcases hm : st.mode with _ | _
  · rcases v with s | s | n | s | _ | xs | _
    · simp only [routeReply, hm]; exact hpop st _
    · simp only [routeReply, hm]; exact hpop st _
    · simp only [routeReply, hm]; exact hpop st _
    · simp only [routeReply, hm]; exact hpop st _
    · simp only [routeReply, hm]; exact hpop st _
    · rcases xs with _ | ⟨x, xs'⟩
      · simp only [routeReply, hm]; exact hpop st _
      · rcases x with k | k | k | k | _ | k | _
        · simp only [routeReply, hm]; exact hpop st _
        · simp only [routeReply, hm]; exact hpop st _
        · simp only [routeReply, hm]; exact hpop st _
        · rcases xs' with _ | ⟨y, ys⟩
          · simp only [routeReply, hm]; exact hpop st _
          · rcases y with m | m | m | m | _ | m | _
            · simp only [routeReply, hm]; exact hpop st _
            · simp only [routeReply, hm]; exact hpop st _
            · simp only [routeReply, hm]; exact hpop st _
            · simp only [routeReply, hm]
              by_cases hk : isSubKind k = true
              · rw [if_pos hk]
                rcases hlk : lookupSub st.subs m with _ | cb
                · exact ⟨rfl, rfl⟩
                · exact ⟨rfl, rfl⟩
              · rw [if_neg hk]
                exact hpop st _
            · simp only [routeReply, hm]; exact hpop st _
            · simp only [routeReply, hm]; exact hpop st _
            · simp only [routeReply, hm]; exact hpop st _
        · simp only [routeReply, hm]; exact hpop st _
        · simp only [routeReply, hm]; exact hpop st _
        · simp only [routeReply, hm]; exact hpop st _
    · simp only [routeReply, hm]; exact hpop st _
  · rcases v with s | s | n | s | _ | xs | _
    · simp [routeReply, hm]
    · simp [routeReply, hm]
    · simp [routeReply, hm]
    · simp [routeReply, hm]
    · simp [routeReply, hm]
    · rcases xs with _ | ⟨x, xs'⟩
      · simp [routeReply, hm]
      · rcases x with k | k | k | k | _ | k | _
        · simp [routeReply, hm]
        · simp [routeReply, hm]
        · simp [routeReply, hm]
        · rcases xs' with _ | ⟨y, ys⟩
          · simp [routeReply, hm]
          · rcases y with m | m | m | m | _ | m | _
            · simp [routeReply, hm]
            · simp [routeReply, hm]
            · simp [routeReply, hm]
            · simp only [routeReply, hm]
              by_cases hk : isUnsubKind k = true
              · rw [if_pos hk]
                exact ⟨rfl, rfl⟩
              · rw [if_neg hk]
                exact ⟨rfl, rfl⟩

            · simp [routeReply, hm]
            · simp [routeReply, hm]
            · simp [routeReply, hm]
        · simp [routeReply, hm]
        · simp [routeReply, hm]
        · simp [routeReply, hm]
    · simp [routeReply, hm]

/-- Processing bytes that decode to exactly one complete reply routes
that one reply and stops. -/
theorem processBytes_single (st : ConnState) (bs : List Char) (v : ReplyValue)
    (hc : st.closed = false) (hb : st.buffer = []) (hdec : decode bs = .ok v []) :
    processBytes st bs = routeReply { st with buffer := [] } v := by
  unfold processBytes
  rw [if_neg (by simp [hc]), hb]
  simp only [List.nil_append, processBufferF, hdec]
  rw [processBufferF_empty _ _ ((routeReply_state _ v).1.trans rfl)]
  simp

/-- The FIFO run characterization lifted to the socket-readable event. -/
theorem processBytes_run (st : ConnState) (bs : List Char) (rs : List ReplyValue)
    (hm : st.mode = .normal) (hc : st.closed = false) (hb : st.buffer = [])
    (hdec : DecodesTo bs rs) (hord : ∀ r ∈ rs, isSubAck r = false)
    (hlen : rs.length ≤ st.pending.length) :
    processBytes st bs =
      ({ st with pending := st.pending.drop rs.length, buffer := [] },
       (st.pending.zip rs).map (fun p => deliverReply p.1 p.2)) := by
  unfold processBytes
  rw [if_neg (by simp [hc]), hb]
  simp only [List.nil_append]
  exact processRun rs (bs.length + 1) { st with buffer := bs } hm hdec hord hlen
    (by have := DecodesTo_length hdec; omega)

/-- `decode` on one full integer reply line. -/
theorem decode_intLine (n : Nat) :
    decode (':' :: (natDigits n ++ '\r' :: '\n' :: [])) = .ok (.integer ((n : Int))) [] :=
  decodeF_intLine _ n []

/-! ## The claims -/

/-- Claim C1: for every sequence of commands sent back-to-back on one
connection in normal mode, completion callbacks are invoked in exactly
submission order — the Nth reply received is matched to, and delivered
to the callback of, the Nth request sent: processing a buffer that
decodes to the replies `rs` resolves exactly the first `rs.length`
pending entries, and the i-th delivery goes to the i-th entry's callback
with the i-th reply. -/
theorem c1_pipelining_fifo (st : ConnState) (bs : List Char) (rs : List ReplyValue)
    (hm : st.mode = .normal) (hc : st.closed = false) (hb : st.buffer = [])
    (hdec : DecodesTo bs rs) (hord : ∀ r ∈ rs, isSubAck r = false)
    (hlen : rs.length ≤ st.pending.length) :
    processBytes st bs =
      ({ st with pending := st.pending.drop rs.length, buffer := [] },
       (st.pending.zip rs).map (fun p => deliverReply p.1 p.2)) ∧
    ∀ i : Nat, i < rs.length →
      (processBytes st bs).2[i]? =
        some (deliverReply (st.pending.getD i dfltEntry) (rs.getD i .nullArray)) := by
  have hmain := processBytes_run st bs rs hm hc hb hdec hord hlen
  refine ⟨hmain, ?_⟩
  intro i hi
  rw [hmain]
  exact zip_map_getElem st.pending rs i hi hlen

theorem c1_pipelining_fifo_witness :
    (processBytes ⟨.normal, [⟨0, rawToPy⟩, ⟨1, rawToPy⟩], [], [], false⟩
        (':' :: '1' :: '\r' :: '\n' :: ':' :: '2' :: '\r' :: '\n' :: [])).2 =
      [.reply 0 none (.pint 1), .reply 1 none (.pint 2)] := by
  have h := c1_pipelining_fifo ⟨.normal, [⟨0, rawToPy⟩, ⟨1, rawToPy⟩], [], [], false⟩
    (':' :: '1' :: '\r' :: '\n' :: ':' :: '2' :: '\r' :: '\n' :: [])
    [.integer 1, .integer 2] rfl rfl rfl
    (DecodesTo.cons rfl (DecodesTo.cons rfl DecodesTo.nil))
    (by decide) (by decide)
  rw [h.1]
  rfl

/-- Claim C2: for every pending request whose reply is an error-type
RESP reply, the reply shaper of that request is not applied and its
completion callback is invoked with the pair `(errorMessage, None)` —
independently of which command was issued (the pending entries, and so
their shapers, are universally quantified and absent from the
conclusion). -/
theorem c2_error_reply_delivery (st : ConnState) (bs : List Char) (rs : List ReplyValue)
    (hm : st.mode = .normal) (hc : st.closed = false) (hb : st.buffer = [])
    (hdec : DecodesTo bs rs) (hord : ∀ r ∈ rs, isSubAck r = false)
    (hlen : rs.length ≤ st.pending.length) :
    ∀ (i : Nat) (m : List Char), i < rs.length → rs.getD i .nullArray = .error m →
      (processBytes st bs).2[i]? =
        some (.reply (st.pending.getD i dfltEntry).cb (some (.serverError m)) .pnone) := by
  intro i m hi herr
  have hmain := processBytes_run st bs rs hm hc hb hdec hord hlen
  rw [hmain]
  rw [zip_map_getElem st.pending rs i hi hlen, herr]
  rfl

theorem c2_error_reply_delivery_witness :
    (processBytes ⟨.normal, [⟨0, rawToPy⟩, ⟨1, rawToPy⟩], [], [], false⟩
        (':' :: '1' :: '\r' :: '\n' :: '-' :: 'E' :: 'R' :: 'R' :: '\r' :: '\n' :: [])).2[1]? =
      some (.reply 1 (some (.serverError ['E', 'R', 'R'])) .pnone) :=
  c2_error_reply_delivery ⟨.normal, [⟨0, rawToPy⟩, ⟨1, rawToPy⟩], [], [], false⟩
    (':' :: '1' :: '\r' :: '\n' :: '-' :: 'E' :: 'R' :: 'R' :: '\r' :: '\n' :: [])
    [.integer 1, .error ['E', 'R', 'R']] rfl rfl rfl
    (DecodesTo.cons rfl (DecodesTo.cons rfl DecodesTo.nil))
    (by decide) (by decide) 1 ['E', 'R', 'R'] (by decide) rfl

/-- Claim C3: for every blocking pop command (`blpop` or `brpop` — both
enqueue a pending entry whose shaper is the default reply translation
`rawToPy`) whose timeout elapses so that the server answers with a null
array (`*-1`), the completion callback receives the no-data result
`(None, None)` — error argument `None` and value argument `None` —
rather than an error. -/
theorem c3_blocking_pop_timeout (cb : Nat) (es : List PendingEntry)
    (subs : List (List Char × Nat)) :
    processBytes ⟨.normal, ⟨cb, rawToPy⟩ :: es, subs, [], false⟩
        ('*' :: '-' :: '1' :: '\r' :: '\n' :: []) =
      (⟨.normal, es, subs, [], false⟩, [.reply cb none .pnone]) := rfl

/-- Claim C7: for every command name and argument list, decoding the
bytes produced by `encode` yields a multi-bulk array of bulk strings
structurally equal to `[cmd] + args` (arguments in their string
representation, here already-coerced character strings), consuming the
whole frame: `decode` is a left inverse of `encode` on command
frames. -/
theorem c7_codec_round_trip (cmd : List Char) (args : List (List Char)) :
    decode (encode cmd args) = .ok (.array ((cmd :: args).map .bulk)) [] :=
  decode_encodeFrame (cmd :: args)

/-- Claim C8: for every complete reply byte sequence and every way of
splitting it into chunks, feeding the chunks to `decode` incrementally
(retrying on `needMore` as each chunk arrives) yields exactly the same
`ReplyValue` as decoding the whole sequence at once; and `decode` never
consumes bytes of an incomplete frame — a successful decode consumes
exactly a prefix, handing back the untouched remainder. -/
theorem c8_incremental_decode :
    (∀ (chunks : List (List Char)) (v : ReplyValue) (rest : List Char),
        decode (chunks.foldr (· ++ ·) []) = .ok v rest →
        ∃ rest', feedChunks [] chunks = .ok v rest') ∧
    (∀ (buf : List Char) (v : ReplyValue) (rest : List Char),
        decode buf = .ok v rest → ∃ p, buf = p ++ rest) := by
  constructor
  · intro chunks v rest h
    exact feedChunks_ok chunks [] h
  · intro buf v rest h
    exact decode_ok_suffix h

theorem c8_incremental_decode_witness :
    ∃ rest', feedChunks [] [[':', '4'], ['2', '\r'], ['\n']] = .ok (.integer 42) rest' :=
  c8_incremental_decode.1 [[':', '4'], ['2', '\r'], ['\n']] (.integer 42) [] rfl

/-- Claim C9: decoding a null bulk string reply (`$-1`) produces a null
`ReplyValue` distinct from the one produced by decoding an empty bulk
string (`$0` with an empty payload); and at the client interface the
null bulk reply surfaces as a `None` value (as for a `get`/`getset`/
`hget` of a missing key), while the empty bulk string surfaces as the
empty string. -/
theorem c9_null_bulk_distinct :
    decode ('$' :: '-' :: '1' :: '\r' :: '\n' :: []) = .ok .nullBulk [] ∧
    decode ('$' :: '0' :: '\r' :: '\n' :: '\r' :: '\n' :: []) = .ok (.bulk []) [] ∧
    ReplyValue.nullBulk ≠ ReplyValue.bulk [] ∧
    rawToPy .nullBulk = .pnone ∧
    rawToPy (.bulk []) = .pstr "" ∧
    PyVal.pstr "" ≠ PyVal.pnone ∧
    (∀ cb es subs, processBytes ⟨.normal, ⟨cb, rawToPy⟩ :: es, subs, [], false⟩
        ('$' :: '-' :: '1' :: '\r' :: '\n' :: []) =
      (⟨.normal, es, subs, [], false⟩, [.reply cb none .pnone])) := by
  refine ⟨rfl, rfl, ?_, rfl, ?_, ?_, fun cb es subs => rfl⟩
  · intro h; exact ReplyValue.noConfusion h
  · rfl
  · intro h; exact PyVal.noConfusion h

theorem c9_null_bulk_distinct_witness :
    decode ('$' :: '-' :: '1' :: '\r' :: '\n' :: []) = .ok .nullBulk [] ∧
    rawToPy .nullBulk = .pnone :=
  ⟨c9_null_bulk_distinct.1, c9_null_bulk_distinct.2.2.2.1⟩

/-- Claim C4: while a connection is in subscribed mode, an incoming push
frame of shape `[kind, channelOrPattern, (patternOnly) actualChannel,
payload]` is delivered to the callback registered for its channel or
pattern in the Subscription registry — the payload of a `message` push
sits at index 2 and the payload of a `pmessage` push at index 3 of the
delivered tuple — and the push never consumes a Pending-Request Queue
entry (the state, including the queue, is returned unchanged). -/
theorem c4_subscribed_push (ch payload : List Char) (cb : Nat)
    (subs : List (List Char × Nat)) (pend : List PendingEntry)
    (hlk : lookupSub subs ch = some cb) :
    (processBytes ⟨.subscribed, pend, subs, [], false⟩ (encodeFrame [kMessage, ch, payload]) =
       (⟨.subscribed, pend, subs, [], false⟩,
        [.push cb [.pstr (String.mk kMessage), .pstr (String.mk ch),
                   .pstr (String.mk payload)]])) ∧
    (∀ (pat ach : List Char), lookupSub subs pat = some cb →
       processBytes ⟨.subscribed, pend, subs, [], false⟩
           (encodeFrame [kPMessage, pat, ach, payload]) =
         (⟨.subscribed, pend, subs, [], false⟩,
          [.push cb [.pstr (String.mk kPMessage), .pstr (String.mk pat),
                     .pstr (String.mk ach), .pstr (String.mk payload)]])) := by
  constructor
  · rw [processBytes_single _ _ _ rfl rfl (decode_encodeFrame [kMessage, ch, payload])]
    simp only [List.map_cons, List.map_nil, routeReply, hlk]
    rw [if_neg (by simp [show isUnsubKind kMessage = false from by decide])]
    rfl
  · intro pat ach hlk2
    rw [processBytes_single _ _ _ rfl rfl (decode_encodeFrame [kPMessage, pat, ach, payload])]
    simp only [List.map_cons, List.map_nil, routeReply, hlk2]
    rw [if_neg (by simp [show isUnsubKind kPMessage = false from by decide])]
    rfl

theorem c4_subscribed_push_witness :
    processBytes ⟨.subscribed, [⟨4, rawToPy⟩], [(['c'], 9)], [], false⟩
        (encodeFrame [kMessage, ['c'], ['p']]) =
      (⟨.subscribed, [⟨4, rawToPy⟩], [(['c'], 9)], [], false⟩,
       [.push 9 [.pstr (String.mk kMessage), .pstr (String.mk ['c']),
                 .pstr (String.mk ['p'])]]) :=
  (c4_subscribed_push ['c'] ['p'] 9 [(['c'], 9)] [⟨4, rawToPy⟩] rfl).1

/-- Claim C5: a connection leaves subscribed mode only when an
`unsubscribe`/`punsubscribe` acknowledgment removes the last entry of
the Subscription registry, emptying it (first conjunct: any routing step
out of subscribed mode is such a step); after the transition back to
normal mode (second conjunct: the concrete last-unsubscribe step), a
subsequently issued ordinary command is matched and resolved through the
Pending-Request Queue again (third conjunct). -/
theorem c5_unsubscribe_transition :
    (∀ (st : ConnState) (v : ReplyValue), st.mode = .subscribed →
        (routeReply st v).1.mode = .normal →
        ∃ k name es, v = .array (.bulk k :: .bulk name :: es) ∧ isUnsubKind k = true ∧
          removeSub st.subs name = [] ∧ (routeReply st v).1.subs = []) ∧
    (∀ (ch : List Char) (cb : Nat) (pend : List PendingEntry),
        routeReply ⟨.subscribed, pend, [(ch, cb)], [], false⟩
            (.array [.bulk kUnsubscribe, .bulk ch, .integer 0]) =
          (⟨.normal, pend, [], [], false⟩,
           [.push cb [.pstr (String.mk kUnsubscribe), .pstr (String.mk ch), .pint 0]])) ∧
    (∀ (e : PendingEntry) (n : Nat),
        processBytes (send ⟨.normal, [], [], [], false⟩ e)
            (':' :: (natDigits n ++ '\r' :: '\n' :: [])) =
          (⟨.normal, [], [], [], false⟩,
           [.reply e.cb none (e.shaper (.integer ((n : Int))))])) := by
  refine ⟨?_, ?_, ?_⟩
  · intro st v hm hmode
    rcases v with s | s | n | s | _ | xs | _
    · rw [show (routeReply st (.status s)).1 = st by simp [routeReply, hm], hm] at hmode
      exact absurd hmode (by simp)
    · rw [show (routeReply st (.error s)).1 = st by simp [routeReply, hm], hm] at hmode
      exact absurd hmode (by simp)
    · rw [show (routeReply st (.integer n)).1 = st by simp [routeReply, hm], hm] at hmode
      exact absurd hmode (by simp)
    · rw [show (routeReply st (.bulk s)).1 = st by simp [routeReply, hm], hm] at hmode
      exact absurd hmode (by simp)
    · rw [show (routeReply st .nullBulk).1 = st by simp [routeReply, hm], hm] at hmode
      exact absurd hmode (by simp)
    · rcases xs with _ | ⟨x, xs'⟩
      · rw [show (routeReply st (.array [])).1 = st by simp [routeReply, hm], hm] at hmode
        exact absurd hmode (by simp)
      · rcases x with k | k | k | k | _ | k | _
        · rw [show (routeReply st (.array (.status k :: xs'))).1 = st
            by simp [routeReply, hm], hm] at hmode
          exact absurd hmode (by simp)
        · rw [show (routeReply st (.array (.error k :: xs'))).1 = st
            by simp [routeReply, hm], hm] at hmode
          exact absurd hmode (by simp)
        · rw [show (routeReply st (.array (.integer k :: xs'))).1 = st
            by simp [routeReply, hm], hm] at hmode
          exact absurd hmode (by simp)
        · rcases xs' with _ | ⟨y, ys⟩
          · rw [show (routeReply st (.array [.bulk k])).1 = st by simp [routeReply, hm], hm]
              at hmode
            exact absurd hmode (by simp)
          · rcases y with m | m | m | m | _ | m | _
            · rw [show (routeReply st (.array (.bulk k :: .status m :: ys))).1 = st
                by simp [routeReply, hm], hm] at hmode
              exact absurd hmode (by simp)
            · rw [show (routeReply st (.array (.bulk k :: .error m :: ys))).1 = st
                by simp [routeReply, hm], hm] at hmode
              exact absurd hmode (by simp)
            · rw [show (routeReply st (.array (.bulk k :: .integer m :: ys))).1 = st
                by simp [routeReply, hm], hm] at hmode
              exact absurd hmode (by simp)
            · by_cases hk : isUnsubKind k = true
              · have hr1 : (routeReply st (.array (.bulk k :: .bulk m :: ys))).1 =
                    { st with
                      subs := removeSub st.subs m
                      mode := (if (removeSub st.subs m).isEmpty then Mode.normal
                               else Mode.subscribed) } := by
                  simp only [routeReply, hm]
                  rw [if_pos hk]
                rcases hrs : removeSub st.subs m with _ | ⟨p, ps⟩
                · refine ⟨k, m, ys, rfl, hk, hrs, ?_⟩
                  rw [hr1]
                  exact hrs
                · rw [hr1] at hmode
                  have hmode' : (if (removeSub st.subs m).isEmpty then Mode.normal
                      else Mode.subscribed) = Mode.normal := hmode
                  rw [hrs] at hmode'
                  simp at hmode'
              · have hr1 : (routeReply st (.array (.bulk k :: .bulk m :: ys))).1 = st := by
                  simp only [routeReply, hm]
                  rw [if_neg hk]
                rw [hr1, hm] at hmode
                exact absurd hmode (by simp)
            · rw [show (routeReply st (.array (.bulk k :: .nullBulk :: ys))).1 = st
                by simp [routeReply, hm], hm] at hmode
              exact absurd hmode (by simp)
            · rw [show (routeReply st (.array (.bulk k :: .array m :: ys))).1 = st
                by simp [routeReply, hm], hm] at hmode
              exact absurd hmode (by simp)
            · rw [show (routeReply st (.array (.bulk k :: .nullArray :: ys))).1 = st
                by simp [routeReply, hm], hm] at hmode
              exact absurd hmode (by simp)
        · rw [show (routeReply st (.array (.nullBulk :: xs'))).1 = st
            by simp [routeReply, hm], hm] at hmode
          exact absurd hmode (by simp)
        · rw [show (routeReply st (.array (.array k :: xs'))).1 = st
            by simp [routeReply, hm], hm] at hmode
          exact absurd hmode (by simp)
        · rw [show (routeReply st (.array (.nullArray :: xs'))).1 = st
            by simp [routeReply, hm], hm] at hmode
          exact absurd hmode (by simp)
    · rw [show (routeReply st .nullArray).1 = st by simp [routeReply, hm], hm] at hmode
      exact absurd hmode (by simp)
  · intro ch cb pend
    have hlk : lookupSub [(ch, cb)] ch = some cb := by
      simp [lookupSub]
    have hrm : removeSub [(ch, cb)] ch = [] := by
      simp [removeSub]
    simp only [routeReply, hlk, hrm]
    rfl
  · intro e n
    rw [show send ⟨.normal, [], [], [], false⟩ e = (⟨.normal, [e], [], [], false⟩ : ConnState)
      from rfl]
    rw [processBytes_single _ _ _ rfl rfl (decode_intLine n)]
    rfl

theorem c5_unsubscribe_transition_witness :
    (∃ k name es, (.array [.bulk kUnsubscribe, .bulk ['c'], .integer 0] : ReplyValue)
        = .array (.bulk k :: .bulk name :: es) ∧ isUnsubKind k = true ∧
        removeSub [(['c'], 3)] name = [] ∧
        (routeReply ⟨.subscribed, [], [(['c'], 3)], [], false⟩
            (.array [.bulk kUnsubscribe, .bulk ['c'], .integer 0])).1.subs = []) ∧
    processBytes (send ⟨.normal, [], [], [], false⟩ ⟨2, rawToPy⟩)
        (':' :: (natDigits 7 ++ '\r' :: '\n' :: [])) =
      (⟨.normal, [], [], [], false⟩, [.reply 2 none (.pint 7)]) :=
  ⟨c5_unsubscribe_transition.1 ⟨.subscribed, [], [(['c'], 3)], [], false⟩
      (.array [.bulk kUnsubscribe, .bulk ['c'], .integer 0]) rfl rfl,
   c5_unsubscribe_transition.2.2 ⟨2, rawToPy⟩ 7⟩

/-- Claim C6: closing a connection with N pending requests delivers a
`ConnectionClosed` error to all N pending callbacks in original
submission (FIFO) order (first conjunct — the queue built by N `send`s
drains to the corresponding N failure deliveries, in order), and no
further callbacks fire on that connection afterwards (second conjunct —
every event on a closed connection delivers nothing); the same
drain-the-whole-queue-in-FIFO-order behaviour applies to every
connection-fatal error: `ProtocolError` (third conjunct) and
`ConnectionError` (fourth conjunct). -/
theorem c6_close_drains_fifo :
    (∀ (st0 : ConnState) (es : List PendingEntry), st0.closed = false → st0.pending = [] →
        closeConn (es.foldl send st0) =
          ({ st0 with pending := [], closed := true },
           es.map (failEntry .connectionClosed))) ∧
    (∀ (st : ConnState) (bs : List Char) (e : PendingEntry), st.closed = true →
        processBytes st bs = (st, []) ∧ closeConn st = (st, []) ∧
        connectionLost st = (st, []) ∧ send st e = st) ∧
    (∀ (st : ConnState) (bs : List Char), st.closed = false →
        decode (st.buffer ++ bs) = .protoErr →
        processBytes st bs =
          ({ st with buffer := st.buffer ++ bs, pending := [], closed := true },
           st.pending.map (failEntry .protocolError))) ∧
    (∀ st : ConnState, st.closed = false →
        connectionLost st =
          ({ st with pending := [], closed := true },
           st.pending.map (failEntry .connectionError))) := by
  refine ⟨?_, ?_, ?_, ?_⟩
  · intro st0 es hc hp
    rw [foldl_send_pending es st0 hc]
    unfold closeConn
    rw [if_neg (by simp [hc])]
    unfold drainAll
    rw [hp]
    rfl
  · intro st bs e hcl
    refine ⟨?_, ?_, ?_, ?_⟩
    · unfold processBytes
      rw [if_pos hcl]
    · unfold closeConn
      rw [if_pos hcl]
    · unfold connectionLost
      rw [if_pos hcl]
    · unfold send
      rw [if_pos hcl]
  · intro st bs hc hdec
    unfold processBytes
    rw [if_neg (by simp [hc])]
    simp only [processBufferF, hdec]
    rfl
  · intro st hc
    unfold connectionLost
    rw [if_neg (by simp [hc])]
    rfl

theorem c6_close_drains_fifo_witness :
    closeConn ([⟨5, rawToPy⟩, ⟨7, rawToPy⟩].foldl send ⟨.normal, [], [], [], false⟩) =
      (⟨.normal, [], [], [], true⟩,
       [.reply 5 (some .connectionClosed) .pnone, .reply 7 (some .connectionClosed) .pnone]) ∧
    closeConn ⟨.normal, [], [], [], true⟩ = (⟨.normal, [], [], [], true⟩, []) :=
  ⟨c6_close_drains_fifo.1 ⟨.normal, [], [], [], false⟩ [⟨5, rawToPy⟩, ⟨7, rawToPy⟩] rfl rfl,
   (c6_close_drains_fifo.2.1 ⟨.normal, [], [], [], true⟩ [] ⟨0, rawToPy⟩ rfl).2.1⟩

theorem passed_if {c : Prop} [Decidable c] {hn hb : Bool}
    (h : (if c then ExpectOutcome.passed hn else .valueAssertFailed) = .passed hb) :
    hn = hb ∧ c := by
  by_cases hc : c
  · rw [if_pos hc] at h
    injection h with h1
    exact ⟨h1, hc⟩
  · rw [if_neg hc] at h
    exact ExpectOutcome.noConfusion h

theorem runExpect_plist (ev ee : PyVal) (hn : Bool) (fn : Option (PyVal → PyVal → Bool))
    (re : PyVal) (xs : List PyVal) (hre : pyEqB re ee = true) :
    runExpect ev ee hn fn re (.plist xs) =
      match pyIter ev with
      | none => .raisedTypeError
      | some es =>
        if (fn.getD pyEqB) (.plist (pySort xs)) (.plist (pySort es)) = true
        then ExpectOutcome.passed hn else .valueAssertFailed := by
  unfold runExpect
  rw [if_pos hre]

/-- Claim C10: the callback closure built by
`TestTornadoRedis.expect(expected_value, expected_error, next,
assertFunc)`, invoked with `(received_error, received_value)`, first
asserts that the received error equals the expected error (first
conjunct: on a mismatch the outcome is the error-assertion failure, with
no value comparison and no continuation); the `next` continuation runs
exactly once, only when both assertions pass and `next` was supplied
(second conjunct); when the received value is a list, both values are
sorted before the comparison, so under the default `assertEqual`
comparison list-valued results are compared order-insensitively and list
order can never cause a failure — the callback passes exactly when the
two lists are permutations of each other (third conjunct); a non-list
received value is compared directly (fourth conjunct). -/
theorem c10_expect_callback :
    (∀ (ev ee : PyVal) (hn : Bool) (fn : Option (PyVal → PyVal → Bool)) (re rv : PyVal),
        re ≠ ee → runExpect ev ee hn fn re rv = .errorAssertFailed) ∧
    (∀ (ev ee : PyVal) (hn : Bool) (fn : Option (PyVal → PyVal → Bool)) (re rv : PyVal),
        runExpect ev ee hn fn re rv = .passed true → re = ee ∧ hn = true) ∧
    (∀ (xs ys : List PyVal) (ee : PyVal) (hn : Bool),
        runExpect (.plist ys) ee hn none ee (.plist xs) = .passed hn ↔ xs.Perm ys) ∧
    (∀ (v ev ee : PyVal) (hn : Bool), (∀ xs, v ≠ .plist xs) →
        (runExpect ev ee hn none ee v = .passed hn ↔ v = ev)) := by
  refine ⟨?_, ?_, ?_, ?_⟩
  · intro ev ee hn fn re rv h
    unfold runExpect
    rw [if_neg (fun hc => h (pyEqB_iff.mp hc))]
  · intro ev ee hn fn re rv h
    by_cases hre : pyEqB re ee = true
    · refine ⟨pyEqB_iff.mp hre, ?_⟩
      rcases rv with _ | n | s | xs
      · unfold runExpect at h
        rw [if_pos hre] at h
        exact (passed_if h).1
      · unfold runExpect at h
        rw [if_pos hre] at h
        exact (passed_if h).1
      · unfold runExpect at h
        rw [if_pos hre] at h
        exact (passed_if h).1
      · rw [runExpect_plist ev ee hn fn re xs hre] at h
        rcases hit : pyIter ev with _ | es <;> rw [hit] at h
        · exact ExpectOutcome.noConfusion h
        · exact (passed_if h).1
    · unfold runExpect at h
      rw [if_neg hre] at h
      exact ExpectOutcome.noConfusion h
  · intro xs ys ee hn
    rw [runExpect_plist (.plist ys) ee hn none ee xs (pyEqB_iff.mpr rfl)]
    constructor
    · intro h
      have hp := (passed_if h).2
      have hq := pyEqB_iff.mp hp
      injection hq with h2
      exact perm_of_pySort_eq h2
    · intro hperm
      show (if pyEqB (.plist (pySort xs)) (.plist (pySort ys)) = true
            then ExpectOutcome.passed hn else .valueAssertFailed) = .passed hn
      rw [if_pos (pyEqB_iff.mpr (by rw [pySort_eq_of_perm hperm]))]
  · intro v ev ee hn hnl
    rcases v with _ | n | s | xs
    · unfold runExpect
      rw [if_pos (pyEqB_iff.mpr rfl)]
      constructor
      · intro h
        exact pyEqB_iff.mp (passed_if h).2
      · intro he
        show (if pyEqB PyVal.pnone ev = true
              then ExpectOutcome.passed hn else .valueAssertFailed) = .passed hn
        rw [if_pos (pyEqB_iff.mpr he)]
    · unfold runExpect
      rw [if_pos (pyEqB_iff.mpr rfl)]
      constructor
      · intro h
        exact pyEqB_iff.mp (passed_if h).2
      · intro he
        show (if pyEqB (PyVal.pint n) ev = true
              then ExpectOutcome.passed hn else .valueAssertFailed) = .passed hn
        rw [if_pos (pyEqB_iff.mpr he)]
    · unfold runExpect
      rw [if_pos (pyEqB_iff.mpr rfl)]
      constructor
      · intro h
        exact pyEqB_iff.mp (passed_if h).2
      · intro he
        show (if pyEqB (PyVal.pstr s) ev = true
              then ExpectOutcome.passed hn else .valueAssertFailed) = .passed hn
        rw [if_pos (pyEqB_iff.mpr he)]
    · exact absurd rfl (hnl xs)

theorem c10_expect_callback_witness :
    runExpect (.pint 1) .pnone true none (.pstr "e") (.pint 1) = .errorAssertFailed ∧
    runExpect (.plist [.pstr "a", .pstr "b"]) .pnone true none .pnone
      (.plist [.pstr "b", .pstr "a"]) = .passed true :=
  ⟨c10_expect_callback.1 (.pint 1) .pnone true none (.pstr "e") (.pint 1)
      (fun h => PyVal.noConfusion h),
   (c10_expect_callback.2.2.1 [.pstr "b", .pstr "a"] [.pstr "a", .pstr "b"] .pnone true).mpr
      (List.Perm.swap (PyVal.pstr "a") (PyVal.pstr "b") [])⟩

end TornadoRedis
